import Mathlib

/-!
# mm-traywatch: unread counters, reconciliation, status icon and backoff

A shallow embedding of `src/main.go`.

* Go `int64` (and `time.Duration`, which is an `int64` of nanoseconds) is an `Int`
  with every arithmetic result passed through `wrapInt64`.
* `map[string]*T` is an association list with unique keys (`mapGet`, `mapSet`).
  Every `*Counts` stored in the map is freshly allocated (`&Counts{}` or a new
  `cnt`), so no two keys alias and a value model is exact.
* Dynamic type assertions on event data (`.(string)`, `.(map[string]any)`) are
  modelled by `Option` fields: `none` means the datum is absent or of another
  dynamic type.  A single-value assertion that fails panics; the panic is the
  result `none` of the operation.
* `encoding/json` is an external library and enters as a parameter (`Json`).
* `float64` arithmetic is exact rational arithmetic followed by `roundF64`, the
  rounding to the nearest binary64 value.
* The mutex, the logger and the tray callback do not influence the counters and
  are left out.
-/

namespace TrayWatch

/-! ## Machine integers -/

/-- Two's-complement wrap-around of a Go `int64` result. -/
def wrapInt64 (x : Int) : Int :=
  (x + 9223372036854775808) % 18446744073709551616 - 9223372036854775808

/-! ## Data model -/

/-- Go struct `Counts` (main.go 52-58). -/
structure Counts where
  Direct : Int
  Mentions : Int
  Group : Int
  Channel : Int
  Replies : Int
deriving DecidableEq, Repr

/-- The Go composite literal `Counts{}`: every field is zero. -/
def Counts.zero : Counts := ⟨0, 0, 0, 0, 0⟩

/-- Go `map[string]*T`, entries in some iteration order. -/
abbrev GoMap (α : Type) := List (String × α)

/-- Map read `m[k]` in its two-value form: `none` is `ok == false`. -/
def mapGet {α : Type} : GoMap α → String → Option α
  | [], _ => none
  | (k', v) :: rest, k => if k' = k then some v else mapGet rest k

/-- Map write `m[k] = v`: overwrites the entry of `k` or adds one. -/
def mapSet {α : Type} : GoMap α → String → α → GoMap α
  | [], k, v => [(k, v)]
  | (k', v') :: rest, k, v =>
    if k' = k then (k, v) :: rest else (k', v') :: mapSet rest k v

/-- A Go map holds one entry per key. -/
def NodupKeys {α : Type} (m : GoMap α) : Prop :=
  (m.map Prod.fst).Nodup

/-- The field `counts` of Go struct `Counter` (main.go 60-64). -/
abbrev Aggregate := GoMap Counts

/-! ## Status icon (main.go 349-359) -/

/-- The three tray icons held in the globals `icon`, `iconDotBlue`, `iconDotRed`. -/
inductive Resource where
  | icon
  | iconDotBlue
  | iconDotRed
deriving DecidableEq, Repr

/-- The `for _, c := range counts` loop of `pickIcon`; `i` is the loop variable
of the same name and the list is the order in which the map is iterated. -/
def pickIconLoop : List (String × Counts) → Resource → Resource
  | [], i => i
  | (_, c) :: rest, i =>
    if c.Direct > 0 ∨ c.Mentions > 0 then Resource.iconDotRed
    else if c.Group > 0 ∨ c.Channel > 0 ∨ c.Replies > 0 then
      pickIconLoop rest Resource.iconDotBlue
    else pickIconLoop rest i

/-- Go `pickIcon`. -/
def pickIcon (counts : Aggregate) : Resource :=
  pickIconLoop counts Resource.icon

/-- Some conversation has a direct or mention count above zero. -/
def hasUrgent (counts : List (String × Counts)) : Prop :=
  ∃ e ∈ counts, e.2.Direct > 0 ∨ e.2.Mentions > 0

/-- Some conversation has a group, channel or reply count above zero. -/
def hasAttention (counts : List (String × Counts)) : Prop :=
  ∃ e ∈ counts, e.2.Group > 0 ∨ e.2.Channel > 0 ∨ e.2.Replies > 0

instance (l : List (String × Counts)) : Decidable (hasUrgent l) := by
  unfold hasUrgent; infer_instance

instance (l : List (String × Counts)) : Decidable (hasAttention l) := by
  unfold hasAttention; infer_instance

/-! ## Event handling (main.go 72-151) -/

/-- Constant `PostSystemMessagePrefix` of the Mattermost `model` package. -/
def PostSystemMessagePrefix : String := "system_"

/-- Constant `ChannelTypeOpen` of the Mattermost `model` package. -/
def ChannelTypeOpen : String := "O"

/-- Constant `ChannelTypePrivate` of the Mattermost `model` package. -/
def ChannelTypePrivate : String := "P"

/-- Constant `ChannelTypeDirect` of the Mattermost `model` package. -/
def ChannelTypeDirect : String := "D"

/-- Constant `ChannelTypeGroup` of the Mattermost `model` package. -/
def ChannelTypeGroup : String := "G"

/-- The two fields of `mattermost.Post` that `ProcessPost` reads. -/
structure Post where
  Type_ : String
  RootId : String
deriving DecidableEq, Repr

/-- The zero value of `var post mattermost.Post`. -/
def Post.zero : Post := ⟨"", ""⟩

/-- Outcome of one `json.Unmarshal(data, &dst)` call on a zero-valued `dst`:
the destination after the call and whether the returned error is non-nil. -/
structure Decoded (α : Type) where
  value : α
  err : Bool

/-- The library function `json.Unmarshal` at the two destination types used. -/
structure Json where
  unmarshalPost : String → Decoded Post
  unmarshalMentions : String → Decoded (List String)

/-- A `posted` websocket event as `ProcessPost` reads it. -/
structure PostedEvent where
  /-- Value of `event.GetBroadcast().ChannelId`. -/
  ChannelId : String
  /-- Value of `event.GetData()["post"].(string)`. -/
  post : Option String
  /-- Value of `event.GetData()["channel_type"].(string)`. -/
  channel_type : Option String
  /-- Value of `event.GetData()["mentions"].(string)`. -/
  mentions : Option String

/-- A `multiple_channels_viewed` websocket event: the keys of
`event.GetData()["channel_times"].(map[string]any)` in iteration order. -/
structure ViewedEvent where
  channel_times : Option (List String)

/-- Go `strings.HasPrefix`. -/
def HasPrefix (s p : String) : Bool :=
  p.toList.isPrefixOf s.toList

/-- The `switch channelType` of `ProcessPost` (main.go 122-131); the switch has
no default case. -/
def bumpKind (channelType : String) (counts : Counts) : Counts :=
  if channelType = ChannelTypeDirect then
    { counts with Direct := wrapInt64 (counts.Direct + 1) }
  else if channelType = ChannelTypeGroup then
    { counts with Group := wrapInt64 (counts.Group + 1) }
  else if channelType = ChannelTypeOpen then
    { counts with Channel := wrapInt64 (counts.Channel + 1) }
  else if channelType = ChannelTypePrivate then
    { counts with Channel := wrapInt64 (counts.Channel + 1) }
  else counts

/-- The `for _, mention := range mentions` loop of `ProcessPost`
(main.go 139-144), which leaves at the first match. -/
def mentionsLoop (userId : String) : List String → Counts → Counts
  | [], counts => counts
  | mention :: rest, counts =>
    if mention = userId then { counts with Mentions := wrapInt64 (counts.Mentions + 1) }
    else mentionsLoop userId rest counts

/-- The mentions block of `ProcessPost` (main.go 133-147). -/
def bumpMentions (json : Json) (userId : String) (mentions : Option String)
    (counts : Counts) : Counts :=
  match mentions with
  | some raw =>
    if raw ≠ "" then
      let d := json.unmarshalMentions raw
      if d.err then counts else mentionsLoop userId d.value counts
    else counts
  | none => counts

/-- Go `Counter.ProcessPost`.  The result is the map `s.counts` after the call;
`none` is the panic of `event.GetData()["channel_type"].(string)`. -/
def ProcessPost (json : Json) (s : Aggregate) (event : PostedEvent) (userId : String) :
    Option Aggregate :=
  let channelId := event.ChannelId
  let (s, counts) :=
    match mapGet s channelId with
    | some c => (s, c)
    | none => (mapSet s channelId Counts.zero, Counts.zero)
  match event.post with
  | none => some s
  | some p =>
    let post := (json.unmarshalPost p).value
    if HasPrefix post.Type_ PostSystemMessagePrefix then some s
    else
      let counts :=
        if post.RootId ≠ "" then { counts with Replies := wrapInt64 (counts.Replies + 1) }
        else counts
      match event.channel_type with
      | none => none
      | some channelType =>
        let counts := bumpKind channelType counts
        let counts := bumpMentions json userId event.mentions counts
        some (mapSet s channelId counts)

/-- The `for channelId := range viewedChannels` loop of `ProcessChannelViewed`. -/
def viewedLoop : List String → Aggregate → Aggregate
  | [], s => s
  | channelId :: rest, s => viewedLoop rest (mapSet s channelId Counts.zero)

/-- Go `Counter.ProcessChannelViewed`; `none` is the panic of the type assertion
on `channel_times`. -/
def ProcessChannelViewed (s : Aggregate) (event : ViewedEvent) : Option Aggregate :=
  match event.channel_times with
  | none => none
  | some viewedChannels => some (viewedLoop viewedChannels s)

/-- The event kinds told apart by the listener goroutine of `runSocket`. -/
inductive Event where
  | posted (e : PostedEvent)
  | viewed (e : ViewedEvent)
  | other

/-- The `switch event.EventType()` of the listener goroutine (main.go 219-236). -/
def handleEvent (json : Json) (userId : String) (s : Aggregate) : Event → Option Aggregate
  | Event.posted e => ProcessPost json s e userId
  | Event.viewed e => ProcessChannelViewed s e
  | Event.other => some s

/-- The `for event := range ws.EventChannel` loop (main.go 216-237). -/
def listen (json : Json) (userId : String) : Aggregate → List Event → Option Aggregate
  | s, [] => some s
  | s, e :: rest =>
    match handleEvent json userId s e with
    | none => none
    | some s1 => listen json userId s1 rest

/-! ## Reconciliation (main.go 66-70, 361-418) -/

/-- The fields of `mattermost.Channel` that `syncCounts` reads. -/
structure Channel where
  Id : String
  Type_ : String
  TotalMsgCount : Int
  TotalMsgCountRoot : Int
deriving DecidableEq, Repr

/-- The fields of `mattermost.ChannelMember` that `syncCounts` reads. -/
structure ChannelMember where
  ChannelId : String
  MsgCount : Int
  MsgCountRoot : Int
  MentionCount : Int
deriving DecidableEq, Repr

/-- One team of `teams` together with what the two REST calls made for it
answer: `GetChannelsForTeamAndUserWithLastDeleteAt` and
`GetChannelMembersForUser`. -/
structure TeamPull where
  Name : String
  chans : Except String (List Channel)
  members : Except String (List ChannelMember)

/-- Go `Counter.SetCounts`. -/
def SetCounts (_s : Aggregate) (counts : Aggregate) : Aggregate := counts

/-- The `for _, cn := range chans` loop building `chansById`. -/
def indexChans : List Channel → GoMap Channel → GoMap Channel
  | [], chansById => chansById
  | cn :: rest, chansById => indexChans rest (mapSet chansById cn.Id cn)

/-- The counters computed for one membership record (main.go 393-411). -/
def mkCounts (channel : Channel) (mem : ChannelMember) : Counts :=
  let repliesTotal := wrapInt64 (channel.TotalMsgCount - channel.TotalMsgCountRoot)
  let repliesSeen := wrapInt64 (mem.MsgCount - mem.MsgCountRoot)
  let unreadTotal := wrapInt64 (channel.TotalMsgCount - mem.MsgCount)
  let cnt : Counts :=
    { Counts.zero with
      Replies := wrapInt64 (repliesTotal - repliesSeen)
      Mentions := mem.MentionCount }
  if channel.Type_ = ChannelTypeDirect then { cnt with Direct := unreadTotal }
  else if channel.Type_ = ChannelTypeGroup then { cnt with Group := unreadTotal }
  else if channel.Type_ = ChannelTypeOpen then { cnt with Channel := unreadTotal }
  else if channel.Type_ = ChannelTypePrivate then { cnt with Channel := unreadTotal }
  else cnt

/-- The `for _, mem := range members` loop of `syncCounts`. -/
def membersLoop (chansById : GoMap Channel) : List ChannelMember → Aggregate → Aggregate
  | [], fresh => fresh
  | mem :: rest, fresh =>
    match mapGet chansById mem.ChannelId with
    | none => membersLoop chansById rest fresh
    | some channel => membersLoop chansById rest (mapSet fresh channel.Id (mkCounts channel mem))

/-- The `for _, team := range teams` loop of `syncCounts`; an early `return`
with an error is `Except.error`. -/
def teamsLoop : List TeamPull → Aggregate → Except String Aggregate
  | [], fresh => Except.ok fresh
  | team :: rest, fresh =>
    match team.chans with
    | Except.error err =>
      Except.error ("failed getting for team " ++ team.Name ++ ": " ++ err)
    | Except.ok chans =>
      let chansById := indexChans chans []
      match team.members with
      | Except.error err =>
        Except.error ("failed getting members for team " ++ team.Name ++ ": " ++ err)
      | Except.ok members => teamsLoop rest (membersLoop chansById members fresh)

/-- Go `syncCounts`: the returned error (`none` is `nil`) and the map held by
the `Counter` after the call. -/
def syncCounts (teams : List TeamPull) (counter : Aggregate) : Option String × Aggregate :=
  match teamsLoop teams [] with
  | Except.error err => (some err, counter)
  | Except.ok fresh => (none, SetCounts counter fresh)

/-! ## Reconnect backoff (main.go 189-212, 255-277) -/

/-- Go `time.Second`, in nanoseconds. -/
def Second : Int := 1000000000

/-- The integer part of Go `sleepBackoff`, from line 261 on.  `jitter` is the value
of `time.Duration(float64(current) * (1 + 0.2*rand.Float64()))`; the result is
the duration slept (`wait`) and the returned duration. -/
def sleepBackoff (current : Int) (jitter : Int) : Int × Int :=
  let wait := wrapInt64 (current + jitter)
  let wait := if wait > 60 * Second then 60 * Second else wait
  let current := if current < 30 * Second then wrapInt64 (current * 2) else current
  (wait, current)

/-- Rounding of a rational to the nearest integer, a tie going to the even
neighbour. -/
def roundHalfEven (t : ℚ) : ℤ :=
  if t - ⌊t⌋ < 1 / 2 then ⌊t⌋
  else if 1 / 2 < t - ⌊t⌋ then ⌊t⌋ + 1
  else if ⌊t⌋ % 2 = 0 then ⌊t⌋ else ⌊t⌋ + 1

/-- Rounding of a rational to the nearest binary64 value, ties to even: the
rounding of every `float64` operation and conversion in Go.  A binary64 value has
a 53-bit significand, so the spacing at `x` is `2 ^ (e - 52)` with
`2 ^ e ≤ |x| < 2 ^ (e + 1)`.  The exponent limits of binary64 are left out: the
values met in `jitter` lie between `2 ^ (-56)` and `2 ^ 64`. -/
def roundF64 (x : ℚ) : ℚ :=
  if x = 0 then 0
  else (roundHalfEven (x / 2 ^ (Int.log 2 |x| - 52)) : ℚ) * 2 ^ (Int.log 2 |x| - 52)

/-- Go conversion of a `float64` to `int64`, as in `time.Duration(f)`: the
fraction is discarded.  For a value outside the `int64` range Go leaves the
result to the implementation; that case is `none`. -/
def toInt64 (x : ℚ) : Option Int :=
  let t : Int := if 0 ≤ x then ⌊x⌋ else ⌈x⌉
  if -9223372036854775808 ≤ t ∧ t < 9223372036854775808 then some t else none

/-- The factor `(1 + 0.2*rand.Float64())` of main.go 260 for the draw `r`; `0.2`
is the `float64` constant nearest to one fifth.  Go permits an implementation to
fuse `x*y + z` into one operation with a single rounding; `fused` tells whether
it does. -/
def jitterFactor (fused : Bool) (r : ℚ) : ℚ :=
  if fused then roundF64 (1 + roundF64 (1 / 5) * r)
  else roundF64 (1 + roundF64 (roundF64 (1 / 5) * r))

/-- The variable `jitter` of `sleepBackoff`:
`time.Duration(float64(current) * (1 + 0.2*rand.Float64()))`, where
`rand.Float64()` returned `r` (a multiple of `2 ^ (-53)` in `[0, 1)`). -/
def jitter (fused : Bool) (current : Int) (r : ℚ) : Option Int :=
  toInt64 (roundF64 (roundF64 (current : ℚ) * jitterFactor fused r))

/-- Go `sleepBackoff` for the draw `r`: the duration slept and the returned
duration. -/
def sleepBackoffDraw (fused : Bool) (current : Int) (r : ℚ) : Option (Int × Int) :=
  match jitter fused current r with
  | none => none
  | some j => some (sleepBackoff current j)

/-- The variable `backoff` of `runSocket` after a run of consecutive failed
rounds, one `jitter` per round, counted from `backoff := 1 * time.Second`. -/
def backoffAfter : List Int → Int
  | [] => 1 * Second
  | jitter :: earlier => (sleepBackoff (backoffAfter earlier) jitter).2

/-! ## Vocabulary of the specification and sample data -/

/-- The classification "the message mentions the watching user": the mentions
field is a non-empty string that decodes to a list containing the user id. -/
def isMentioned (json : Json) (userId : String) (mentions : Option String) : Prop :=
  ∃ raw, mentions = some raw ∧ raw ≠ "" ∧ (json.unmarshalMentions raw).err = false ∧
    userId ∈ (json.unmarshalMentions raw).value

/-- The event is a posted event for conversation `c`. -/
def Event.isPostFor (c : String) : Event → Bool
  | Event.posted e => decide (e.ChannelId = c)
  | _ => false

/-- The event data have the dynamic types the handlers assert without a check:
a posted event carries a string `channel_type`, a viewed event a map
`channel_times`. -/
def Event.wellTyped : Event → Prop
  | Event.posted e => ∃ kind, e.channel_type = some kind
  | Event.viewed e => ∃ K, e.channel_times = some K
  | Event.other => True

/-- A well-formed posted event of kind direct that does not mention the user:
the post body decodes to a non-system post. -/
def isPlainDirectPost (json : Json) (userId : String) (e : PostedEvent) : Prop :=
  ∃ p, e.post = some p ∧ (json.unmarshalPost p).err = false ∧
    HasPrefix (json.unmarshalPost p).value.Type_ PostSystemMessagePrefix = false ∧
    e.channel_type = some ChannelTypeDirect ∧ ¬ isMentioned json userId e.mentions

/-- Text of a system post body. -/
def systemPostText : String := "\x7b\"type\":\"system_join_channel\"\x7d"

/-- Text of a thread-root post body of ordinary type. -/
def plainPostText : String := "\x7b\"type\":\"\"\x7d"

/-- Text of a mentions list naming the user `u` twice. -/
def mentionsText : String := "[\"u\",\"x\",\"u\"]"

/-- A decoder for concrete runs.  It agrees with `json.Unmarshal` on the texts
used in this file: the three texts above decode without error, and any other
text is treated like `not json`, which `json.Unmarshal` rejects as a syntax
error before it writes to the destination. -/
def sampleJson : Json where
  unmarshalPost := fun p =>
    if p = systemPostText then ⟨⟨"system_join_channel", ""⟩, false⟩
    else if p = plainPostText then ⟨Post.zero, false⟩
    else ⟨Post.zero, true⟩
  unmarshalMentions := fun raw =>
    if raw = mentionsText then ⟨["u", "x", "u"], false⟩ else ⟨[], true⟩

/-- A successful pull of one team: an open channel `c` with a membership
record, and a direct channel `x` without one. -/
def sampleTeams : List TeamPull :=
  [⟨"t", Except.ok [⟨"c", "O", 10, 7⟩, ⟨"x", "D", 3, 3⟩], Except.ok [⟨"c", 6, 5, 2⟩]⟩]

/-- A pull whose second team fails on the membership fetch after the first team
was fetched and processed. -/
def sampleFailingTeams : List TeamPull :=
  [⟨"t", Except.ok [⟨"c", "O", 10, 7⟩], Except.ok [⟨"c", 6, 5, 2⟩]⟩,
   ⟨"b", Except.ok [⟨"d", "D", 4, 4⟩], Except.error "timeout"⟩]

/-- A run of events: two plain direct posts for `c`, between them a group post
for `d` that mentions the user, then a viewed event for `d`. -/
def sampleEvents : List Event :=
  [Event.posted ⟨"c", some plainPostText, some "D", none⟩,
   Event.posted ⟨"d", some plainPostText, some "G", some mentionsText⟩,
   Event.posted ⟨"c", some plainPostText, some "D", none⟩,
   Event.viewed ⟨some ["d"]⟩]

/-! ## Theorems -/

theorem hasUrgent_cons (e : String × Counts) (l : List (String × Counts)) :
    hasUrgent (e :: l) ↔ (e.2.Direct > 0 ∨ e.2.Mentions > 0) ∨ hasUrgent l := by
  simp [hasUrgent]

theorem hasAttention_cons (e : String × Counts) (l : List (String × Counts)) :
    hasAttention (e :: l) ↔
      (e.2.Group > 0 ∨ e.2.Channel > 0 ∨ e.2.Replies > 0) ∨ hasAttention l := by
  simp [hasAttention]

/-- Closed form of the loop of `pickIcon`. -/
theorem pickIconLoop_eq (l : List (String × Counts)) (i : Resource) :
    pickIconLoop l i =
      if hasUrgent l then Resource.iconDotRed
      else if hasAttention l then Resource.iconDotBlue else i := by
  induction l generalizing i with
  | nil => simp [pickIconLoop, hasUrgent, hasAttention]
  | cons e rest ih =>
    obtain ⟨k, c⟩ := e
    unfold pickIconLoop
    by_cases h1 : c.Direct > 0 ∨ c.Mentions > 0
    · simp [h1, hasUrgent_cons]
    · by_cases h2 : c.Group > 0 ∨ c.Channel > 0 ∨ c.Replies > 0
      · rw [if_neg h1, if_pos h2, ih]
        simp only [hasUrgent_cons, hasAttention_cons, h1, h2, false_or, true_or, if_true]
        split <;> simp
      · rw [if_neg h1, if_neg h2, ih]
        simp only [hasUrgent_cons, hasAttention_cons, h1, h2, false_or]

/-! ### Maps -/

theorem mapGet_mapSet {α : Type} (m : GoMap α) (k k' : String) (v : α) :
    mapGet (mapSet m k v) k' = if k = k' then some v else mapGet m k' := by
  induction m with
  | nil => simp [mapSet, mapGet]
  | cons e rest ih =>
    obtain ⟨k0, v0⟩ := e
    by_cases h0 : k0 = k
    · subst h0
      by_cases h1 : k0 = k' <;> simp [mapSet, mapGet, h1]
    · by_cases h1 : k0 = k'
      · subst h1
        simp [mapSet, mapGet, h0, Ne.symm h0]
      · simp [mapSet, mapGet, h0, h1, ih]

theorem mapGet_mapSet_self {α : Type} (m : GoMap α) (k : String) (v : α) :
    mapGet (mapSet m k v) k = some v := by
  simp [mapGet_mapSet]

theorem mapGet_mapSet_ne {α : Type} (m : GoMap α) (k k' : String) (v : α) (h : k' ≠ k) :
    mapGet (mapSet m k v) k' = mapGet m k' := by
  simp [mapGet_mapSet, Ne.symm h]

/-! ### Machine integers -/

theorem wrapInt64_of_inRange (x : Int) (h1 : -9223372036854775808 ≤ x)
    (h2 : x < 9223372036854775808) : wrapInt64 x = x := by
  unfold wrapInt64
  omega

/-! ### C1: the status icon -/

/-- C1: `pickIcon` depends only on the contents of the aggregate.  It returns the
red-dot icon exactly when some conversation has `Direct > 0` or `Mentions > 0`;
otherwise the blue-dot icon exactly when some conversation has `Group > 0`,
`Channel > 0` or `Replies > 0`; otherwise the plain icon.  Any iteration order
of the same entries gives the same icon, and one conversation with `Direct = 1`
forces the red-dot icon whatever else the aggregate holds. -/
theorem pickIcon_spec (counts : Aggregate) :
    (pickIcon counts = Resource.iconDotRed ↔
      ∃ e ∈ counts, e.2.Direct > 0 ∨ e.2.Mentions > 0) ∧
    (pickIcon counts = Resource.iconDotBlue ↔
      (¬ ∃ e ∈ counts, e.2.Direct > 0 ∨ e.2.Mentions > 0) ∧
      ∃ e ∈ counts, e.2.Group > 0 ∨ e.2.Channel > 0 ∨ e.2.Replies > 0) ∧
    (pickIcon counts = Resource.icon ↔
      (¬ ∃ e ∈ counts, e.2.Direct > 0 ∨ e.2.Mentions > 0) ∧
      ¬ ∃ e ∈ counts, e.2.Group > 0 ∨ e.2.Channel > 0 ∨ e.2.Replies > 0) ∧
    (∀ order : Aggregate, List.Perm order counts → pickIcon order = pickIcon counts) ∧
    (∀ k c, (k, c) ∈ counts → c.Direct = 1 → pickIcon counts = Resource.iconDotRed) := by
  have key : ∀ l : Aggregate, pickIcon l =
      if hasUrgent l then Resource.iconDotRed
      else if hasAttention l then Resource.iconDotBlue else Resource.icon :=
    fun l => pickIconLoop_eq l Resource.icon
  have hu : hasUrgent counts ↔ ∃ e ∈ counts, e.2.Direct > 0 ∨ e.2.Mentions > 0 := Iff.rfl
  have ha : hasAttention counts ↔
      ∃ e ∈ counts, e.2.Group > 0 ∨ e.2.Channel > 0 ∨ e.2.Replies > 0 := Iff.rfl
  rw [← hu, ← ha]
  refine ⟨?_, ?_, ?_, ?_, ?_⟩
  · rw [key]
    by_cases h1 : hasUrgent counts <;> by_cases h2 : hasAttention counts <;> simp [h1, h2]
  · rw [key]
    by_cases h1 : hasUrgent counts <;> by_cases h2 : hasAttention counts <;> simp [h1, h2]
  · rw [key]
    by_cases h1 : hasUrgent counts <;> by_cases h2 : hasAttention counts <;> simp [h1, h2]
  · intro order hperm
    have e1 : hasUrgent order ↔ hasUrgent counts := by
      unfold hasUrgent
      exact ⟨fun ⟨e, he, hp⟩ => ⟨e, hperm.mem_iff.1 he, hp⟩,
        fun ⟨e, he, hp⟩ => ⟨e, hperm.mem_iff.2 he, hp⟩⟩
    have e2 : hasAttention order ↔ hasAttention counts := by
      unfold hasAttention
      exact ⟨fun ⟨e, he, hp⟩ => ⟨e, hperm.mem_iff.1 he, hp⟩,
        fun ⟨e, he, hp⟩ => ⟨e, hperm.mem_iff.2 he, hp⟩⟩
    rw [key, key]
    simp only [e1, e2]
  · intro k c hmem hc
    rw [key, if_pos]
    exact ⟨(k, c), hmem, Or.inl (by simp [hc])⟩

/-! ### C3: viewed events -/

theorem mapGet_viewedLoop (K : List String) (s : Aggregate) (id : String) :
    mapGet (viewedLoop K s) id = if id ∈ K then some Counts.zero else mapGet s id := by
  induction K generalizing s with
  | nil => simp [viewedLoop]
  | cons k rest ih =>
    rw [viewedLoop, ih]
    by_cases h1 : id ∈ rest
    · simp [h1]
    · by_cases h2 : id = k
      · subst h2
        simp [h1, mapGet_mapSet_self]
      · simp [h1, h2, mapGet_mapSet_ne _ _ _ _ h2]

/-- C3: after `ProcessChannelViewed` on an event with key set `K`, every id in `K`
maps to all-zero counters, whatever it mapped to before and whether or not it
was present, and every id outside `K` keeps its prior entry or stays absent. -/
theorem ProcessChannelViewed_spec (s : Aggregate) (K : List String) :
    ∃ after, ProcessChannelViewed s ⟨some K⟩ = some after ∧
      (∀ id ∈ K, ∃ c, mapGet after id = some c ∧ c.Direct = 0 ∧ c.Mentions = 0 ∧
        c.Group = 0 ∧ c.Channel = 0 ∧ c.Replies = 0) ∧
      (∀ id, id ∉ K → mapGet after id = mapGet s id) := by
  refine ⟨viewedLoop K s, rfl, ?_, ?_⟩
  · intro id hid
    exact ⟨Counts.zero, by simp [mapGet_viewedLoop, hid], rfl, rfl, rfl, rfl, rfl⟩
  · intro id hid
    simp [mapGet_viewedLoop, hid]

/-! ### C2, C5, C6: posted events -/

theorem bumpKind_fields (kind : String) (c : Counts) :
    (bumpKind kind c).Direct =
      (if kind = ChannelTypeDirect then wrapInt64 (c.Direct + 1) else c.Direct) ∧
    (bumpKind kind c).Group =
      (if kind = ChannelTypeGroup then wrapInt64 (c.Group + 1) else c.Group) ∧
    (bumpKind kind c).Channel =
      (if kind = ChannelTypeOpen ∨ kind = ChannelTypePrivate then wrapInt64 (c.Channel + 1)
        else c.Channel) ∧
    (bumpKind kind c).Replies = c.Replies ∧
    (bumpKind kind c).Mentions = c.Mentions := by
  have e1 : ChannelTypeGroup ≠ ChannelTypeDirect := by decide
  have e2 : ChannelTypeOpen ≠ ChannelTypeDirect := by decide
  have e3 : ChannelTypePrivate ≠ ChannelTypeDirect := by decide
  have e4 : ChannelTypeOpen ≠ ChannelTypeGroup := by decide
  have e5 : ChannelTypePrivate ≠ ChannelTypeGroup := by decide
  have e6 : ChannelTypePrivate ≠ ChannelTypeOpen := by decide
  unfold bumpKind
  by_cases hD : kind = ChannelTypeDirect
  · simp [hD, e1.symm, e2.symm, e3.symm]
  · by_cases hG : kind = ChannelTypeGroup
    · simp [hG, e1, e4.symm, e5.symm]
    · by_cases hO : kind = ChannelTypeOpen
      · simp [hO, e2, e4]
      · by_cases hP : kind = ChannelTypePrivate
        · simp [hP, e3, e5, e6]
        · simp [hD, hG, hO, hP]

theorem mentionsLoop_eq (userId : String) (l : List String) (c : Counts) :
    mentionsLoop userId l c =
      if userId ∈ l then { c with Mentions := wrapInt64 (c.Mentions + 1) } else c := by
  induction l with
  | nil => simp [mentionsLoop]
  | cons m rest ih =>
    unfold mentionsLoop
    by_cases h : m = userId
    · simp [h]
    · have h2 : ¬ userId = m := fun e => h e.symm
      simp [h, h2, ih]

theorem bumpMentions_of_mentioned (json : Json) (userId : String) (mentions : Option String)
    (c : Counts) (h : isMentioned json userId mentions) :
    bumpMentions json userId mentions c = { c with Mentions := wrapInt64 (c.Mentions + 1) } := by
  obtain ⟨raw, rfl, hne, herr, hmem⟩ := h
  simp [bumpMentions, hne, herr, mentionsLoop_eq, hmem]

theorem bumpMentions_of_not_mentioned (json : Json) (userId : String)
    (mentions : Option String) (c : Counts) (h : ¬ isMentioned json userId mentions) :
    bumpMentions json userId mentions c = c := by
  cases mentions with
  | none => rfl
  | some raw =>
    unfold bumpMentions
    by_cases hne : raw = ""
    · simp [hne]
    · by_cases herr : (json.unmarshalMentions raw).err = true
      · simp [hne, herr]
      · have herr2 : (json.unmarshalMentions raw).err = false := by simpa using herr
        have hmem : userId ∉ (json.unmarshalMentions raw).value :=
          fun hm => h ⟨raw, rfl, hne, herr2, hm⟩
        simp [hne, herr2, mentionsLoop_eq, hmem]

/-- The map after the lookup-or-create step at the head of `ProcessPost`. -/
theorem ProcessPost_init (s : Aggregate) (c : String) :
    ∃ s1, (match mapGet s c with
        | some v => (s, v)
        | none => (mapSet s c Counts.zero, Counts.zero)) = (s1, (mapGet s c).getD Counts.zero) ∧
      mapGet s1 c = some ((mapGet s c).getD Counts.zero) ∧
      (∀ id, id ≠ c → mapGet s1 id = mapGet s id) ∧
      ((mapGet s c).isSome → s1 = s) := by
  cases h : mapGet s c with
  | some v => exact ⟨s, by simp, by simp [h], fun _ _ => rfl, fun _ => rfl⟩
  | none =>
    exact ⟨mapSet s c Counts.zero, by simp, by simp [mapGet_mapSet_self],
      fun id hid => mapGet_mapSet_ne _ _ _ _ hid, fun hh => by simp at hh⟩

/-- What `ProcessPost` does with a post that is not a system post. -/
theorem ProcessPost_nonsystem (json : Json) (s : Aggregate) (u c p kind : String)
    (mentions : Option String)
    (hsys : HasPrefix (json.unmarshalPost p).value.Type_ PostSystemMessagePrefix = false) :
    ∃ after old new,
      ProcessPost json s ⟨c, some p, some kind, mentions⟩ u = some after ∧
      old = (mapGet s c).getD ⟨0, 0, 0, 0, 0⟩ ∧
      mapGet after c = some new ∧
      new.Direct = (if kind = ChannelTypeDirect then wrapInt64 (old.Direct + 1)
        else old.Direct) ∧
      new.Group = (if kind = ChannelTypeGroup then wrapInt64 (old.Group + 1)
        else old.Group) ∧
      new.Channel = (if kind = ChannelTypeOpen ∨ kind = ChannelTypePrivate
        then wrapInt64 (old.Channel + 1) else old.Channel) ∧
      new.Replies = (if (json.unmarshalPost p).value.RootId = "" then old.Replies
        else wrapInt64 (old.Replies + 1)) ∧
      (isMentioned json u mentions → new.Mentions = wrapInt64 (old.Mentions + 1)) ∧
      (¬ isMentioned json u mentions → new.Mentions = old.Mentions) ∧
      (∀ id, id ≠ c → mapGet after id = mapGet s id) ∧
      (∀ x : Int, -9223372036854775808 ≤ x → x < 9223372036854775807 →
        wrapInt64 (x + 1) = x + 1) := by
  obtain ⟨s1, hinit, hget, hframe, _⟩ := ProcessPost_init s c
  let old : Counts := (mapGet s c).getD Counts.zero
  let c1 : Counts :=
    if (json.unmarshalPost p).value.RootId ≠ "" then
      { old with Replies := wrapInt64 (old.Replies + 1) } else old
  let c2 := bumpKind kind c1
  let c3 := bumpMentions json u mentions c2
  have hrun : ProcessPost json s ⟨c, some p, some kind, mentions⟩ u = some (mapSet s1 c c3) := by
    simp only [ProcessPost, hinit, hsys]
    rfl
  obtain ⟨hD, hG, hC, hR, hM⟩ := bumpKind_fields kind c1
  have hc1 : c1.Direct = old.Direct ∧ c1.Group = old.Group ∧ c1.Channel = old.Channel ∧
      c1.Mentions = old.Mentions ∧
      c1.Replies = (if (json.unmarshalPost p).value.RootId = "" then old.Replies
        else wrapInt64 (old.Replies + 1)) := by
    by_cases hr : (json.unmarshalPost p).value.RootId = "" <;> simp [c1, hr]
  obtain ⟨h1D, h1G, h1C, h1M, h1R⟩ := hc1
  have hc3 : c3.Direct = c2.Direct ∧ c3.Group = c2.Group ∧ c3.Channel = c2.Channel ∧
      c3.Replies = c2.Replies := by
    by_cases hm : isMentioned json u mentions
    · simp [c3, bumpMentions_of_mentioned _ _ _ _ hm]
    · simp [c3, bumpMentions_of_not_mentioned _ _ _ _ hm]
  obtain ⟨h3D, h3G, h3C, h3R⟩ := hc3
  refine ⟨mapSet s1 c c3, old, c3, hrun, rfl, mapGet_mapSet_self _ _ _, ?_, ?_, ?_, ?_, ?_, ?_,
    ?_, ?_⟩
  · rw [h3D]; show (bumpKind kind c1).Direct = _; rw [hD, h1D]
  · rw [h3G]; show (bumpKind kind c1).Group = _; rw [hG, h1G]
  · rw [h3C]; show (bumpKind kind c1).Channel = _; rw [hC, h1C]
  · rw [h3R]; show (bumpKind kind c1).Replies = _; rw [hR, h1R]
  · intro hm
    show (bumpMentions json u mentions c2).Mentions = _
    rw [bumpMentions_of_mentioned _ _ _ _ hm]
    show wrapInt64 ((bumpKind kind c1).Mentions + 1) = _
    rw [hM, h1M]
  · intro hm
    show (bumpMentions json u mentions c2).Mentions = _
    rw [bumpMentions_of_not_mentioned _ _ _ _ hm]
    show (bumpKind kind c1).Mentions = _
    rw [hM, h1M]
  · intro id hid
    rw [mapGet_mapSet_ne _ _ _ _ hid, hframe id hid]
  · intro x h1 h2
    unfold wrapInt64
    omega

/-- C2: a posted event for conversation `c` whose post body decodes to a
non-system post starts from the counters of `c` (all zero when `c` is absent),
adds one to `Direct`, `Group` or `Channel` according to the channel kind
(`D`, `G`, `O` or `P`), adds one to `Replies` exactly when the root id is
non-empty, adds one to `Mentions` exactly when the user id occurs in the decoded
mentions list, and leaves every other conversation as it was.  Additions are
`int64` additions, which are exact below the largest `int64`. -/
theorem ProcessPost_spec (json : Json) (s : Aggregate) (u c p kind : String)
    (mentions : Option String)
    (hsys : HasPrefix (json.unmarshalPost p).value.Type_ PostSystemMessagePrefix = false) :
    ∃ after old new,
      ProcessPost json s ⟨c, some p, some kind, mentions⟩ u = some after ∧
      old = (mapGet s c).getD ⟨0, 0, 0, 0, 0⟩ ∧
      mapGet after c = some new ∧
      new.Direct = (if kind = ChannelTypeDirect then wrapInt64 (old.Direct + 1)
        else old.Direct) ∧
      new.Group = (if kind = ChannelTypeGroup then wrapInt64 (old.Group + 1)
        else old.Group) ∧
      new.Channel = (if kind = ChannelTypeOpen ∨ kind = ChannelTypePrivate
        then wrapInt64 (old.Channel + 1) else old.Channel) ∧
      new.Replies = (if (json.unmarshalPost p).value.RootId = "" then old.Replies
        else wrapInt64 (old.Replies + 1)) ∧
      (isMentioned json u mentions → new.Mentions = wrapInt64 (old.Mentions + 1)) ∧
      (¬ isMentioned json u mentions → new.Mentions = old.Mentions) ∧
      (∀ id, id ≠ c → mapGet after id = mapGet s id) ∧
      (∀ x : Int, -9223372036854775808 ≤ x → x < 9223372036854775807 →
        wrapInt64 (x + 1) = x + 1) :=
  ProcessPost_nonsystem json s u c p kind mentions hsys

/-- Witness of `ProcessPost_spec`: a direct post that names `u` twice, arriving
for a conversation that is not yet in the aggregate. -/
theorem ProcessPost_spec_witness :
    HasPrefix (sampleJson.unmarshalPost plainPostText).value.Type_ PostSystemMessagePrefix
      = false ∧
    ProcessPost sampleJson [] ⟨"c", some plainPostText, some "D", some mentionsText⟩ "u"
      = some [("c", ⟨1, 1, 0, 0, 0⟩)] ∧
    ∃ after old new,
      ProcessPost sampleJson [] ⟨"c", some plainPostText, some "D", some mentionsText⟩ "u"
        = some after ∧
      old = (mapGet ([] : Aggregate) "c").getD ⟨0, 0, 0, 0, 0⟩ ∧
      mapGet after "c" = some new ∧
      new.Direct = (if "D" = ChannelTypeDirect then wrapInt64 (old.Direct + 1)
        else old.Direct) ∧
      new.Group = (if "D" = ChannelTypeGroup then wrapInt64 (old.Group + 1)
        else old.Group) ∧
      new.Channel = (if "D" = ChannelTypeOpen ∨ "D" = ChannelTypePrivate
        then wrapInt64 (old.Channel + 1) else old.Channel) ∧
      new.Replies = (if (sampleJson.unmarshalPost plainPostText).value.RootId = ""
        then old.Replies else wrapInt64 (old.Replies + 1)) ∧
      (isMentioned sampleJson "u" (some mentionsText) →
        new.Mentions = wrapInt64 (old.Mentions + 1)) ∧
      (¬ isMentioned sampleJson "u" (some mentionsText) → new.Mentions = old.Mentions) ∧
      (∀ id, id ≠ "c" → mapGet after id = mapGet ([] : Aggregate) id) ∧
      (∀ x : Int, -9223372036854775808 ≤ x → x < 9223372036854775807 →
        wrapInt64 (x + 1) = x + 1) :=
  ⟨by decide, by decide,
    ProcessPost_spec sampleJson [] "u" "c" plainPostText "D" (some mentionsText) (by decide)⟩

/-- C5, evaluated: a posted event whose post body is `not json` is rejected by the
decoder, yet `ProcessPost` goes on with the zero-valued post and counts the
message: the empty aggregate becomes one with `Direct = 1` for the
conversation. -/
theorem ProcessPost_undecodable_counts :
    (sampleJson.unmarshalPost "not json").err = true ∧
    ProcessPost sampleJson [] ⟨"c", some "not json", some "D", none⟩ "u"
      = some [("c", ⟨1, 0, 0, 0, 0⟩)] ∧
    ProcessPost sampleJson [("c", ⟨0, 0, 0, 0, 0⟩)] ⟨"c", some "not json", some "D", none⟩ "u"
      = some [("c", ⟨1, 0, 0, 0, 0⟩)] := by
  decide

/-- C6, as stated, fails: a system post for a conversation that is absent from
the aggregate leaves the aggregate with a new all-zero entry for it. -/
theorem ProcessPost_system_absent_counterexample :
    HasPrefix (sampleJson.unmarshalPost systemPostText).value.Type_ PostSystemMessagePrefix
      = true ∧
    mapGet ([] : Aggregate) "c" = none ∧
    ProcessPost sampleJson [] ⟨"c", some systemPostText, some "O", none⟩ "u"
      = some [("c", ⟨0, 0, 0, 0, 0⟩)] ∧
    ProcessPost sampleJson [] ⟨"c", some systemPostText, some "O", none⟩ "u" ≠ some [] := by
  decide

/-- C6, amended: a posted event whose decoded post type starts with the system
prefix increments nothing.  Every other conversation keeps its entry; the
conversation of the event keeps its counters when it was present (the aggregate
is then unchanged as a whole) and is entered with all-zero counters when it was
absent. -/
theorem ProcessPost_system_spec (json : Json) (s : Aggregate) (e : PostedEvent)
    (u p : String) (hp : e.post = some p)
    (hsys : HasPrefix (json.unmarshalPost p).value.Type_ PostSystemMessagePrefix = true) :
    ∃ after, ProcessPost json s e u = some after ∧
      (∀ id, id ≠ e.ChannelId → mapGet after id = mapGet s id) ∧
      (∀ old, mapGet s e.ChannelId = some old → after = s) ∧
      (mapGet s e.ChannelId = none → mapGet after e.ChannelId = some ⟨0, 0, 0, 0, 0⟩) := by
  obtain ⟨s1, hinit, hget, hframe, hsame⟩ := ProcessPost_init s e.ChannelId
  have hrun : ProcessPost json s e u = some s1 := by
    simp only [ProcessPost, hinit, hp, hsys]
    rfl
  refine ⟨s1, hrun, hframe, ?_, ?_⟩
  · intro old hold
    exact hsame (by simp [hold])
  · intro hnone
    rw [hget, hnone]
    rfl

/-- Witness of `ProcessPost_system_spec`: a system post for a conversation that
holds unread counts. -/
theorem ProcessPost_system_spec_witness :
    HasPrefix (sampleJson.unmarshalPost systemPostText).value.Type_ PostSystemMessagePrefix
      = true ∧
    ∃ after, ProcessPost sampleJson [("c", ⟨1, 2, 3, 4, 5⟩)]
        ⟨"c", some systemPostText, some "O", none⟩ "u" = some after ∧
      (∀ id, id ≠ "c" → mapGet after id = mapGet [("c", (⟨1, 2, 3, 4, 5⟩ : Counts))] id) ∧
      (∀ old, mapGet [("c", (⟨1, 2, 3, 4, 5⟩ : Counts))] "c" = some old →
        after = [("c", ⟨1, 2, 3, 4, 5⟩)]) ∧
      (mapGet [("c", (⟨1, 2, 3, 4, 5⟩ : Counts))] "c" = none →
        mapGet after "c" = some ⟨0, 0, 0, 0, 0⟩) :=
  ⟨by decide,
    ProcessPost_system_spec sampleJson [("c", ⟨1, 2, 3, 4, 5⟩)]
      ⟨"c", some systemPostText, some "O", none⟩ "u" systemPostText rfl (by decide)⟩

/-! ### C10: counting direct posts since the last viewed event -/

theorem wrapInt64_succ_wrap (x : Int) : wrapInt64 (wrapInt64 x + 1) = wrapInt64 (x + 1) := by
  unfold wrapInt64
  omega

/-- A posted event with a string `channel_type` does not panic and touches no
conversation but its own. -/
theorem ProcessPost_frame (json : Json) (s : Aggregate) (pe : PostedEvent) (u : String)
    (h : ∃ kind, pe.channel_type = some kind) :
    ∃ after, ProcessPost json s pe u = some after ∧
      ∀ id, id ≠ pe.ChannelId → mapGet after id = mapGet s id := by
  obtain ⟨c, post, ct, m⟩ := pe
  obtain ⟨kind, hk⟩ := h
  simp only at hk
  subst hk
  obtain ⟨s1, hinit, _, hframe, _⟩ := ProcessPost_init s c
  cases post with
  | none =>
    refine ⟨s1, ?_, hframe⟩
    simp only [ProcessPost, hinit]
  | some p =>
    by_cases hsys : HasPrefix (json.unmarshalPost p).value.Type_ PostSystemMessagePrefix = true
    · refine ⟨s1, ?_, hframe⟩
      simp only [ProcessPost, hinit, hsys]
      rfl
    · have hsys2 : HasPrefix (json.unmarshalPost p).value.Type_ PostSystemMessagePrefix
          = false := by simpa using hsys
      obtain ⟨after, _, _, hrun, _, _, _, _, _, _, _, _, hfr, _⟩ :=
        ProcessPost_nonsystem json s u c p kind m hsys2
      exact ⟨after, hrun, hfr⟩

/-- A plain direct post adds one to `Direct` and leaves `Mentions` alone. -/
theorem ProcessPost_plainDirect (json : Json) (s : Aggregate) (pe : PostedEvent) (u : String)
    (h : isPlainDirectPost json u pe) (cnt : Counts) (hc : mapGet s pe.ChannelId = some cnt) :
    ∃ after new, ProcessPost json s pe u = some after ∧
      mapGet after pe.ChannelId = some new ∧
      new.Direct = wrapInt64 (cnt.Direct + 1) ∧ new.Mentions = cnt.Mentions := by
  obtain ⟨c, post, ct, m⟩ := pe
  obtain ⟨p, hp, _, hsys, hct, hm⟩ := h
  simp only at hp hct hm hc
  subst hp hct
  obtain ⟨after, old, new, hrun, hold, hget, hD, _, _, _, _, hM, _, _⟩ :=
    ProcessPost_nonsystem json s u c p ChannelTypeDirect m hsys
  rw [hc] at hold
  simp only [Option.getD_some] at hold
  subst hold
  refine ⟨after, new, hrun, hget, ?_, hM hm⟩
  rw [hD, if_pos rfl]

theorem listen_direct_count (json : Json) (u c : String) (es : List Event) :
    ∀ (s : Aggregate) (cnt : Counts) (k : Int),
      mapGet s c = some cnt → cnt.Direct = wrapInt64 k → cnt.Mentions = 0 →
      (∀ e ∈ es, Event.wellTyped e) →
      (∀ K, Event.viewed ⟨some K⟩ ∈ es → c ∉ K) →
      (∀ pe, Event.posted pe ∈ es → pe.ChannelId = c → isPlainDirectPost json u pe) →
      ∃ after new, listen json u s es = some after ∧ mapGet after c = some new ∧
        new.Direct = wrapInt64 (k + (es.countP (Event.isPostFor c) : Nat)) ∧
        new.Mentions = 0 := by
  induction es with
  | nil =>
    intro s cnt k hget hD hM _ _ _
    exact ⟨s, cnt, rfl, hget, by simpa using hD, hM⟩
  | cons e rest ih =>
    intro s cnt k hget hD hM hwt hview hposts
    have hwt2 : ∀ e ∈ rest, Event.wellTyped e := fun x hx => hwt x (List.mem_cons_of_mem _ hx)
    have hview2 : ∀ K, Event.viewed ⟨some K⟩ ∈ rest → c ∉ K :=
      fun K hK => hview K (List.mem_cons_of_mem _ hK)
    have hposts2 : ∀ pe, Event.posted pe ∈ rest → pe.ChannelId = c →
        isPlainDirectPost json u pe :=
      fun pe hpe => hposts pe (List.mem_cons_of_mem _ hpe)
    cases e with
    | other =>
      obtain ⟨after, new, hrun, hg, hd, hm⟩ := ih s cnt k hget hD hM hwt2 hview2 hposts2
      refine ⟨after, new, ?_, hg, ?_, hm⟩
      · simp only [listen, handleEvent]
        exact hrun
      · simpa [List.countP_cons, Event.isPostFor] using hd
    | viewed ve =>
      obtain ⟨K, hK⟩ : ∃ K, ve.channel_times = some K := hwt _ (List.mem_cons_self _ _)
      obtain ⟨ct⟩ := ve
      simp only at hK
      subst hK
      have hc : c ∉ K := hview K (List.mem_cons_self _ _)
      have hget2 : mapGet (viewedLoop K s) c = some cnt := by
        rw [mapGet_viewedLoop, if_neg hc, hget]
      obtain ⟨after, new, hrun, hg, hd, hm⟩ :=
        ih (viewedLoop K s) cnt k hget2 hD hM hwt2 hview2 hposts2
      refine ⟨after, new, ?_, hg, ?_, hm⟩
      · simp only [listen, handleEvent, ProcessChannelViewed]
        exact hrun
      · simpa [List.countP_cons, Event.isPostFor] using hd
    | posted pe =>
      by_cases hpc : pe.ChannelId = c
      · have hplain := hposts pe (List.mem_cons_self _ _) hpc
        obtain ⟨s1, new1, hrun1, hg1, hd1, hm1⟩ :=
          ProcessPost_plainDirect json s pe u hplain cnt (by rw [hpc]; exact hget)
        rw [hpc] at hg1
        have hD1 : new1.Direct = wrapInt64 (k + 1) := by
          rw [hd1, hD, wrapInt64_succ_wrap]
        obtain ⟨after, new, hrun, hg, hd, hm⟩ :=
          ih s1 new1 (k + 1) hg1 hD1 (by rw [hm1, hM]) hwt2 hview2 hposts2
        refine ⟨after, new, ?_, hg, ?_, hm⟩
        · simp only [listen, handleEvent, hrun1]
          exact hrun
        · rw [hd]
          congr 1
          simp only [List.countP_cons, Event.isPostFor, hpc, decide_True, if_true]
          push_cast
          ring
      · obtain ⟨s1, hrun1, hfr⟩ :=
          ProcessPost_frame json s pe u (hwt _ (List.mem_cons_self _ _))
        have hg1 : mapGet s1 c = some cnt := by
          rw [hfr c (fun h => hpc h.symm), hget]
        obtain ⟨after, new, hrun, hg, hd, hm⟩ :=
          ih s1 cnt k hg1 hD hM hwt2 hview2 hposts2
        refine ⟨after, new, ?_, hg, ?_, hm⟩
        · simp only [listen, handleEvent, hrun1]
          exact hrun
        · simpa [List.countP_cons, Event.isPostFor, hpc] using hd

/-- C10: start right after a viewed event that covers conversation `c` and apply
any finite sequence of well-typed events in which no viewed event covers `c` and
every posted event for `c` is a well-formed direct post without a mention of
the user.  With `n` the number of posted events for `c`, the run ends without a
panic with `Direct = n` for `c` (as an `int64`, so exactly `n` below `2^63`) and
`Mentions = 0`; events for other conversations do not change the count. -/
theorem direct_count_since_viewed (json : Json) (u c : String) (s : Aggregate)
    (K : List String) (es : List Event)
    (hK : c ∈ K)
    (hwt : ∀ e ∈ es, Event.wellTyped e)
    (hview : ∀ K2, Event.viewed ⟨some K2⟩ ∈ es → c ∉ K2)
    (hposts : ∀ pe, Event.posted pe ∈ es → pe.ChannelId = c → isPlainDirectPost json u pe) :
    ∃ s0 after cnt,
      ProcessChannelViewed s ⟨some K⟩ = some s0 ∧
      listen json u s0 es = some after ∧
      mapGet after c = some cnt ∧
      cnt.Direct = wrapInt64 (es.countP (Event.isPostFor c) : Nat) ∧
      cnt.Mentions = 0 ∧
      ((es.countP (Event.isPostFor c) : Int) < 9223372036854775808 →
        cnt.Direct = (es.countP (Event.isPostFor c) : Nat)) := by
  have h0 : mapGet (viewedLoop K s) c = some Counts.zero := by
    rw [mapGet_viewedLoop, if_pos hK]
  obtain ⟨after, cnt, hrun, hg, hd, hm⟩ :=
    listen_direct_count json u c es (viewedLoop K s) Counts.zero 0 h0 (by decide) rfl
      hwt hview hposts
  rw [zero_add] at hd
  refine ⟨viewedLoop K s, after, cnt, rfl, hrun, hg, hd, hm, ?_⟩
  intro hlt
  rw [hd]
  apply wrapInt64_of_inRange
  · have : (0 : Int) ≤ (es.countP (Event.isPostFor c) : Nat) := Int.natCast_nonneg _
    omega
  · exact hlt

/-! ### C4, C7: reconciliation -/

theorem mapGet_indexChans (chans : List Channel) (m : GoMap Channel) (id : String) :
    (∀ ch, mapGet (indexChans chans m) id = some ch →
      (ch ∈ chans ∧ ch.Id = id) ∨ mapGet m id = some ch) ∧
    ((∃ ch ∈ chans, ch.Id = id) → ∃ ch, mapGet (indexChans chans m) id = some ch) ∧
    ((∃ ch, mapGet m id = some ch) → ∃ ch, mapGet (indexChans chans m) id = some ch) := by
  induction chans generalizing m with
  | nil =>
    refine ⟨fun ch h => Or.inr h, ?_, fun h => h⟩
    rintro ⟨ch, hch, _⟩
    cases hch
  | cons cn rest ih =>
    obtain ⟨ih1, ih2, ih3⟩ := ih (mapSet m cn.Id cn)
    refine ⟨?_, ?_, ?_⟩
    · intro ch h
      rcases ih1 ch h with ⟨hmem, hid⟩ | h2
      · exact Or.inl ⟨List.mem_cons_of_mem _ hmem, hid⟩
      · rw [mapGet_mapSet] at h2
        by_cases hk : cn.Id = id
        · rw [if_pos hk] at h2
          cases h2
          exact Or.inl ⟨List.mem_cons_self _ _, hk⟩
        · rw [if_neg hk] at h2
          exact Or.inr h2
    · rintro ⟨ch, hch, hid⟩
      rcases List.mem_cons.1 hch with rfl | hmem
      · exact ih3 ⟨ch, by rw [← hid, mapGet_mapSet_self]⟩
      · exact ih2 ⟨ch, hmem, hid⟩
    · rintro ⟨ch, hch⟩
      apply ih3
      rw [mapGet_mapSet]
      by_cases hk : cn.Id = id
      · exact ⟨cn, by rw [if_pos hk]⟩
      · exact ⟨ch, by rw [if_neg hk, hch]⟩

theorem mapGet_membersLoop (chansById : GoMap Channel) (members : List ChannelMember)
    (fresh : Aggregate) (id : String) :
    (∀ cnt, mapGet (membersLoop chansById members fresh) id = some cnt →
      mapGet fresh id = some cnt ∨
      ∃ mem ∈ members, ∃ ch, mapGet chansById mem.ChannelId = some ch ∧ ch.Id = id ∧
        cnt = mkCounts ch mem) ∧
    ((∃ mem ∈ members, ∃ ch, mapGet chansById mem.ChannelId = some ch ∧ ch.Id = id) →
      ∃ cnt, mapGet (membersLoop chansById members fresh) id = some cnt) ∧
    ((∃ cnt, mapGet fresh id = some cnt) →
      ∃ cnt, mapGet (membersLoop chansById members fresh) id = some cnt) := by
  induction members generalizing fresh with
  | nil =>
    refine ⟨fun cnt h => Or.inl h, ?_, fun h => h⟩
    rintro ⟨mem, hmem, _⟩
    cases hmem
  | cons mem rest ih =>
    cases hch : mapGet chansById mem.ChannelId with
    | none =>
      obtain ⟨ih1, ih2, ih3⟩ := ih fresh
      have hstep : membersLoop chansById (mem :: rest) fresh
          = membersLoop chansById rest fresh := by
        simp only [membersLoop, hch]
      rw [hstep]
      refine ⟨?_, ?_, ih3⟩
      · intro cnt h
        rcases ih1 cnt h with h1 | ⟨m, hm, ch, h2, h3, h4⟩
        · exact Or.inl h1
        · exact Or.inr ⟨m, List.mem_cons_of_mem _ hm, ch, h2, h3, h4⟩
      · rintro ⟨m, hm, ch, h2, h3⟩
        rcases List.mem_cons.1 hm with rfl | hm2
        · rw [hch] at h2
          cases h2
        · exact ih2 ⟨m, hm2, ch, h2, h3⟩
    | some channel =>
      obtain ⟨ih1, ih2, ih3⟩ := ih (mapSet fresh channel.Id (mkCounts channel mem))
      have hstep : membersLoop chansById (mem :: rest) fresh
          = membersLoop chansById rest (mapSet fresh channel.Id (mkCounts channel mem)) := by
        simp only [membersLoop, hch]
      rw [hstep]
      refine ⟨?_, ?_, ?_⟩
      · intro cnt h
        rcases ih1 cnt h with h1 | ⟨m, hm, ch, h2, h3, h4⟩
        · rw [mapGet_mapSet] at h1
          by_cases hk : channel.Id = id
          · rw [if_pos hk] at h1
            cases h1
            exact Or.inr ⟨mem, List.mem_cons_self _ _, channel, hch, hk, rfl⟩
          · rw [if_neg hk] at h1
            exact Or.inl h1
        · exact Or.inr ⟨m, List.mem_cons_of_mem _ hm, ch, h2, h3, h4⟩
      · rintro ⟨m, hm, ch, h2, h3⟩
        rcases List.mem_cons.1 hm with rfl | hm2
        · rw [hch] at h2
          cases h2
          exact ih3 ⟨_, by rw [← h3, mapGet_mapSet_self]⟩
        · exact ih2 ⟨m, hm2, ch, h2, h3⟩
      · rintro ⟨cnt, hcnt⟩
        apply ih3
        rw [mapGet_mapSet]
        by_cases hk : channel.Id = id
        · exact ⟨_, by rw [if_pos hk]⟩
        · exact ⟨cnt, by rw [if_neg hk, hcnt]⟩

/-- The entries one team adds to `fresh`, in terms of its two record lists. -/
theorem mapGet_teamStep (chans : List Channel) (members : List ChannelMember)
    (fresh : Aggregate) (id : String) :
    (∀ cnt, mapGet (membersLoop (indexChans chans []) members fresh) id = some cnt →
      mapGet fresh id = some cnt ∨
      ∃ ch ∈ chans, ∃ mem ∈ members, ch.Id = id ∧ mem.ChannelId = id ∧
        cnt = mkCounts ch mem) ∧
    ((∃ cnt, mapGet (membersLoop (indexChans chans []) members fresh) id = some cnt) ↔
      (∃ cnt, mapGet fresh id = some cnt) ∨
      ((∃ ch ∈ chans, ch.Id = id) ∧ ∃ mem ∈ members, mem.ChannelId = id)) := by
  obtain ⟨m1, m2, m3⟩ := mapGet_membersLoop (indexChans chans []) members fresh id
  have hidx : ∀ k ch, mapGet (indexChans chans []) k = some ch → ch ∈ chans ∧ ch.Id = k := by
    intro k ch h
    rcases (mapGet_indexChans chans [] k).1 ch h with h1 | h1
    · exact h1
    · simp [mapGet] at h1
  refine ⟨?_, ?_, ?_⟩
  · intro cnt h
    rcases m1 cnt h with h1 | ⟨mem, hmem, ch, h2, h3, h4⟩
    · exact Or.inl h1
    · obtain ⟨hch, hid⟩ := hidx _ _ h2
      exact Or.inr ⟨ch, hch, mem, hmem, h3, by rw [← hid, h3], h4⟩
  · rintro ⟨cnt, h⟩
    rcases m1 cnt h with h1 | ⟨mem, hmem, ch, h2, h3, _⟩
    · exact Or.inl ⟨cnt, h1⟩
    · obtain ⟨hch, hid⟩ := hidx _ _ h2
      exact Or.inr ⟨⟨ch, hch, h3⟩, mem, hmem, by rw [← hid, h3]⟩
  · rintro (h | ⟨⟨ch, hch, hid⟩, mem, hmem, hmid⟩)
    · exact m3 h
    · obtain ⟨ch2, hch2⟩ := (mapGet_indexChans chans [] id).2.1 ⟨ch, hch, hid⟩
      obtain ⟨_, hid2⟩ := hidx _ _ hch2
      exact m2 ⟨mem, hmem, ch2, by rw [hmid, hch2], hid2⟩

theorem mkCounts_fields (ch : Channel) (m : ChannelMember) :
    (mkCounts ch m).Replies =
      wrapInt64 (wrapInt64 (ch.TotalMsgCount - ch.TotalMsgCountRoot)
        - wrapInt64 (m.MsgCount - m.MsgCountRoot)) ∧
    (mkCounts ch m).Mentions = m.MentionCount ∧
    (mkCounts ch m).Direct =
      (if ch.Type_ = ChannelTypeDirect then wrapInt64 (ch.TotalMsgCount - m.MsgCount)
        else 0) ∧
    (mkCounts ch m).Group =
      (if ch.Type_ = ChannelTypeGroup then wrapInt64 (ch.TotalMsgCount - m.MsgCount)
        else 0) ∧
    (mkCounts ch m).Channel =
      (if ch.Type_ = ChannelTypeOpen ∨ ch.Type_ = ChannelTypePrivate
        then wrapInt64 (ch.TotalMsgCount - m.MsgCount) else 0) := by
  have e1 : ChannelTypeGroup ≠ ChannelTypeDirect := by decide
  have e2 : ChannelTypeOpen ≠ ChannelTypeDirect := by decide
  have e3 : ChannelTypePrivate ≠ ChannelTypeDirect := by decide
  have e4 : ChannelTypeOpen ≠ ChannelTypeGroup := by decide
  have e5 : ChannelTypePrivate ≠ ChannelTypeGroup := by decide
  have e6 : ChannelTypePrivate ≠ ChannelTypeOpen := by decide
  unfold mkCounts
  by_cases hD : ch.Type_ = ChannelTypeDirect
  · simp [hD, e1.symm, e2.symm, e3.symm, Counts.zero]
  · by_cases hG : ch.Type_ = ChannelTypeGroup
    · simp [hG, e1, e4.symm, e5.symm, Counts.zero]
    · by_cases hO : ch.Type_ = ChannelTypeOpen
      · simp [hO, e2, e4, Counts.zero]
      · by_cases hP : ch.Type_ = ChannelTypePrivate
        · simp [hP, e3, e5, e6, Counts.zero]
        · simp [hD, hG, hO, hP, Counts.zero]

theorem teamsLoop_ok (teams : List TeamPull) :
    ∀ fresh : Aggregate,
      (∀ t ∈ teams, ∃ chans members,
        t.chans = Except.ok chans ∧ t.members = Except.ok members) →
      ∃ result, teamsLoop teams fresh = Except.ok result ∧
        (∀ id cnt, mapGet result id = some cnt →
          mapGet fresh id = some cnt ∨
          ∃ t ∈ teams, ∃ chans members,
            t.chans = Except.ok chans ∧ t.members = Except.ok members ∧
            ∃ ch ∈ chans, ∃ mem ∈ members, ch.Id = id ∧ mem.ChannelId = id ∧
              cnt = mkCounts ch mem) ∧
        (∀ id, (∃ cnt, mapGet result id = some cnt) ↔
          (∃ cnt, mapGet fresh id = some cnt) ∨
          ∃ t ∈ teams, ∃ chans members,
            t.chans = Except.ok chans ∧ t.members = Except.ok members ∧
            (∃ ch ∈ chans, ch.Id = id) ∧ ∃ mem ∈ members, mem.ChannelId = id) := by
  induction teams with
  | nil =>
    intro fresh _
    refine ⟨fresh, rfl, fun id cnt h => Or.inl h, fun id => ?_⟩
    simp
  | cons t rest ih =>
    intro fresh hok
    obtain ⟨chans, members, hc, hm⟩ := hok t (List.mem_cons_self _ _)
    obtain ⟨result, hrun, hval, hkey⟩ :=
      ih (membersLoop (indexChans chans []) members fresh)
        (fun x hx => hok x (List.mem_cons_of_mem _ hx))
    refine ⟨result, ?_, ?_, ?_⟩
    · simp only [teamsLoop, hc, hm]
      exact hrun
    · intro id cnt h
      rcases hval id cnt h with h1 | ⟨t2, ht2, cs, ms, h2, h3, h4⟩
      · rcases (mapGet_teamStep chans members fresh id).1 cnt h1 with h5 | h5
        · exact Or.inl h5
        · exact Or.inr ⟨t, List.mem_cons_self _ _, chans, members, hc, hm, h5⟩
      · exact Or.inr ⟨t2, List.mem_cons_of_mem _ ht2, cs, ms, h2, h3, h4⟩
    · intro id
      rw [hkey id, (mapGet_teamStep chans members fresh id).2]
      constructor
      · rintro ((h | h) | ⟨t2, ht2, cs, ms, h2, h3, h4⟩)
        · exact Or.inl h
        · exact Or.inr ⟨t, List.mem_cons_self _ _, chans, members, hc, hm, h⟩
        · exact Or.inr ⟨t2, List.mem_cons_of_mem _ ht2, cs, ms, h2, h3, h4⟩
      · rintro (h | ⟨t2, ht2, cs, ms, h2, h3, h4⟩)
        · exact Or.inl (Or.inl h)
        · rcases List.mem_cons.1 ht2 with rfl | ht3
          · rw [hc] at h2
            rw [hm] at h3
            cases h2
            cases h3
            exact Or.inl (Or.inr h4)
          · exact Or.inr ⟨t2, ht3, cs, ms, h2, h3, h4⟩

theorem teamsLoop_error (teams : List TeamPull) :
    ∀ fresh : Aggregate,
      (∃ t ∈ teams, (∃ err, t.chans = Except.error err) ∨
        (∃ err, t.members = Except.error err)) →
      ∃ err, teamsLoop teams fresh = Except.error err := by
  induction teams with
  | nil =>
    rintro fresh ⟨t, ht, _⟩
    cases ht
  | cons t rest ih =>
    rintro fresh ⟨t2, ht2, hfail⟩
    cases hc : t.chans with
    | error err => exact ⟨_, by simp only [teamsLoop, hc]; rfl⟩
    | ok chans =>
      cases hm : t.members with
      | error err => exact ⟨_, by simp only [teamsLoop, hc, hm]; rfl⟩
      | ok members =>
        have hrest : ∃ t ∈ rest, (∃ err, t.chans = Except.error err) ∨
            (∃ err, t.members = Except.error err) := by
          rcases List.mem_cons.1 ht2 with rfl | ht3
          · rcases hfail with ⟨e, he⟩ | ⟨e, he⟩
            · rw [hc] at he
              cases he
            · rw [hm] at he
              cases he
          · exact ⟨t2, ht3, hfail⟩
        obtain ⟨err, herr⟩ := ih (membersLoop (indexChans chans []) members fresh) hrest
        exact ⟨err, by simp only [teamsLoop, hc, hm]; exact herr⟩

/-- C4: when every fetch succeeds `syncCounts` returns no error and replaces the
aggregate by a map whose keys are exactly the conversation ids that have a
conversation record and a membership record in one team.  The entry of such an
id is computed from such a pair of records: `Replies` is
`(total - totalRoot) - (seen - seenRoot)`, `Mentions` is the mention count as
sent, the bucket of the channel kind is `total - seen` and the other buckets are
zero.  The subtractions are `int64` subtractions and are exact for counts of
magnitude below `2^61`. -/
theorem syncCounts_spec (teams : List TeamPull) (counter : Aggregate)
    (hok : ∀ t ∈ teams, ∃ chans members,
      t.chans = Except.ok chans ∧ t.members = Except.ok members) :
    ∃ fresh, syncCounts teams counter = (none, fresh) ∧
      (∀ id, (∃ cnt, mapGet fresh id = some cnt) ↔
        ∃ t ∈ teams, ∃ chans members,
          t.chans = Except.ok chans ∧ t.members = Except.ok members ∧
          (∃ ch ∈ chans, ch.Id = id) ∧ ∃ mem ∈ members, mem.ChannelId = id) ∧
      (∀ id cnt, mapGet fresh id = some cnt →
        ∃ t ∈ teams, ∃ chans members,
          t.chans = Except.ok chans ∧ t.members = Except.ok members ∧
          ∃ ch ∈ chans, ∃ mem ∈ members, ch.Id = id ∧ mem.ChannelId = id ∧
            cnt.Replies =
              wrapInt64 (wrapInt64 (ch.TotalMsgCount - ch.TotalMsgCountRoot)
                - wrapInt64 (mem.MsgCount - mem.MsgCountRoot)) ∧
            cnt.Mentions = mem.MentionCount ∧
            cnt.Direct =
              (if ch.Type_ = ChannelTypeDirect
                then wrapInt64 (ch.TotalMsgCount - mem.MsgCount) else 0) ∧
            cnt.Group =
              (if ch.Type_ = ChannelTypeGroup
                then wrapInt64 (ch.TotalMsgCount - mem.MsgCount) else 0) ∧
            cnt.Channel =
              (if ch.Type_ = ChannelTypeOpen ∨ ch.Type_ = ChannelTypePrivate
                then wrapInt64 (ch.TotalMsgCount - mem.MsgCount) else 0) ∧
            (|ch.TotalMsgCount| < 2305843009213693952 →
              |ch.TotalMsgCountRoot| < 2305843009213693952 →
              |mem.MsgCount| < 2305843009213693952 →
              |mem.MsgCountRoot| < 2305843009213693952 →
              cnt.Replies = (ch.TotalMsgCount - ch.TotalMsgCountRoot)
                - (mem.MsgCount - mem.MsgCountRoot) ∧
              wrapInt64 (ch.TotalMsgCount - mem.MsgCount)
                = ch.TotalMsgCount - mem.MsgCount)) := by
  obtain ⟨fresh, hrun, hval, hkey⟩ := teamsLoop_ok teams [] hok
  refine ⟨fresh, ?_, ?_, ?_⟩
  · simp only [syncCounts, hrun, SetCounts]
  · intro id
    rw [hkey id]
    simp [mapGet]
  · intro id cnt h
    rcases hval id cnt h with h1 | ⟨t, ht, cs, ms, h2, h3, ch, hch, mem, hmem, h4, h5, h6⟩
    · simp [mapGet] at h1
    · obtain ⟨f1, f2, f3, f4, f5⟩ := mkCounts_fields ch mem
      subst h6
      refine ⟨t, ht, cs, ms, h2, h3, ch, hch, mem, hmem, h4, h5, f1, f2, f3, f4, f5, ?_⟩
      intro b1 b2 b3 b4
      rw [abs_lt] at b1 b2 b3 b4
      rw [f1]
      unfold wrapInt64
      constructor <;> omega

/-- Witness of `syncCounts_spec`: the reconciliation example of the
specification, with a second channel that has no membership record. -/
theorem syncCounts_spec_witness :
    syncCounts sampleTeams [("old", ⟨9, 9, 9, 9, 9⟩)] = (none, [("c", ⟨0, 2, 0, 4, 2⟩)]) ∧
    ∃ fresh, syncCounts sampleTeams [("old", ⟨9, 9, 9, 9, 9⟩)] = (none, fresh) ∧
      (∀ id, (∃ cnt, mapGet fresh id = some cnt) ↔
        ∃ t ∈ sampleTeams, ∃ chans members,
          t.chans = Except.ok chans ∧ t.members = Except.ok members ∧
          (∃ ch ∈ chans, ch.Id = id) ∧ ∃ mem ∈ members, mem.ChannelId = id) ∧
      (∀ id cnt, mapGet fresh id = some cnt →
        ∃ t ∈ sampleTeams, ∃ chans members,
          t.chans = Except.ok chans ∧ t.members = Except.ok members ∧
          ∃ ch ∈ chans, ∃ mem ∈ members, ch.Id = id ∧ mem.ChannelId = id ∧
            cnt.Replies =
              wrapInt64 (wrapInt64 (ch.TotalMsgCount - ch.TotalMsgCountRoot)
                - wrapInt64 (mem.MsgCount - mem.MsgCountRoot)) ∧
            cnt.Mentions = mem.MentionCount ∧
            cnt.Direct =
              (if ch.Type_ = ChannelTypeDirect
                then wrapInt64 (ch.TotalMsgCount - mem.MsgCount) else 0) ∧
            cnt.Group =
              (if ch.Type_ = ChannelTypeGroup
                then wrapInt64 (ch.TotalMsgCount - mem.MsgCount) else 0) ∧
            cnt.Channel =
              (if ch.Type_ = ChannelTypeOpen ∨ ch.Type_ = ChannelTypePrivate
                then wrapInt64 (ch.TotalMsgCount - mem.MsgCount) else 0) ∧
            (|ch.TotalMsgCount| < 2305843009213693952 →
              |ch.TotalMsgCountRoot| < 2305843009213693952 →
              |mem.MsgCount| < 2305843009213693952 →
              |mem.MsgCountRoot| < 2305843009213693952 →
              cnt.Replies = (ch.TotalMsgCount - ch.TotalMsgCountRoot)
                - (mem.MsgCount - mem.MsgCountRoot) ∧
              wrapInt64 (ch.TotalMsgCount - mem.MsgCount)
                = ch.TotalMsgCount - mem.MsgCount)) :=
  ⟨by decide,
    syncCounts_spec sampleTeams [("old", ⟨9, 9, 9, 9, 9⟩)] (by
      intro t ht
      simp only [sampleTeams, List.mem_singleton] at ht
      subst ht
      exact ⟨_, _, rfl, rfl⟩)⟩

/-- C7: reconciliation is all-or-nothing.  If the conversation fetch or the
membership fetch of any team fails, `syncCounts` returns an error and the
aggregate of the `Counter` is what it was before the call.  The call returns
no error exactly when every fetch of every team succeeds, and only then is the
aggregate replaced, by a map that does not depend on the old one. -/
theorem syncCounts_all_or_nothing (teams : List TeamPull) (counter : Aggregate) :
    ((∃ t ∈ teams, (∃ err, t.chans = Except.error err) ∨
        (∃ err, t.members = Except.error err)) →
      ∃ err, syncCounts teams counter = (some err, counter)) ∧
    ((syncCounts teams counter).1 = none ↔
      ∀ t ∈ teams, ∃ chans members,
        t.chans = Except.ok chans ∧ t.members = Except.ok members) ∧
    ((syncCounts teams counter).1 = none →
      ∀ counter2, (syncCounts teams counter2).2 = (syncCounts teams counter).2) := by
  have herr : (∃ t ∈ teams, (∃ err, t.chans = Except.error err) ∨
        (∃ err, t.members = Except.error err)) →
      ∃ err, syncCounts teams counter = (some err, counter) := by
    intro h
    obtain ⟨err, he⟩ := teamsLoop_error teams [] h
    exact ⟨err, by simp only [syncCounts, he]⟩
  refine ⟨herr, ⟨?_, ?_⟩, ?_⟩
  · intro hnone t ht
    cases hc : t.chans with
    | error e =>
      obtain ⟨err, he⟩ := herr ⟨t, ht, Or.inl ⟨e, hc⟩⟩
      rw [he] at hnone
      cases hnone
    | ok chans =>
      cases hm : t.members with
      | error e =>
        obtain ⟨err, he⟩ := herr ⟨t, ht, Or.inr ⟨e, hm⟩⟩
        rw [he] at hnone
        cases hnone
      | ok members => exact ⟨chans, members, rfl, rfl⟩
  · intro hok
    obtain ⟨fresh, hrun, _⟩ := teamsLoop_ok teams [] hok
    simp only [syncCounts, hrun]
  · intro _ counter2
    cases h : teamsLoop teams [] with
    | error e =>
      rename_i hnone
      simp only [syncCounts, h] at hnone
      cases hnone
    | ok fresh => simp only [syncCounts, h, SetCounts]

/-- Witness of `syncCounts_all_or_nothing`: the second team fails on its
membership fetch after the first team was processed; the old aggregate stays. -/
theorem syncCounts_all_or_nothing_witness :
    syncCounts sampleFailingTeams [("old", ⟨1, 0, 0, 0, 0⟩)]
      = (some "failed getting members for team b: timeout", [("old", ⟨1, 0, 0, 0, 0⟩)]) ∧
    ∃ err, syncCounts sampleFailingTeams [("old", ⟨1, 0, 0, 0, 0⟩)]
      = (some err, [("old", ⟨1, 0, 0, 0, 0⟩)]) :=
  ⟨by decide,
    (syncCounts_all_or_nothing sampleFailingTeams [("old", ⟨1, 0, 0, 0, 0⟩)]).1
      ⟨⟨"b", Except.ok [⟨"d", "D", 4, 4⟩], Except.error "timeout"⟩,
        by simp [sampleFailingTeams], Or.inr ⟨"timeout", rfl⟩⟩⟩

/-- Witness of `direct_count_since_viewed`: two direct posts for `c` with a
mentioning group post and a viewed event for another conversation in between. -/
theorem direct_count_since_viewed_witness :
    listen sampleJson "u" [("c", ⟨0, 0, 0, 0, 0⟩)] sampleEvents
      = some [("c", ⟨2, 0, 0, 0, 0⟩), ("d", ⟨0, 0, 0, 0, 0⟩)] ∧
    ∃ s0 after cnt,
      ProcessChannelViewed [("c", ⟨5, 1, 0, 0, 2⟩)] ⟨some ["c"]⟩ = some s0 ∧
      listen sampleJson "u" s0 sampleEvents = some after ∧
      mapGet after "c" = some cnt ∧
      cnt.Direct = wrapInt64 (sampleEvents.countP (Event.isPostFor "c") : Nat) ∧
      cnt.Mentions = 0 ∧
      ((sampleEvents.countP (Event.isPostFor "c") : Int) < 9223372036854775808 →
        cnt.Direct = (sampleEvents.countP (Event.isPostFor "c") : Nat)) :=
  ⟨by decide,
    direct_count_since_viewed sampleJson "u" "c" [("c", ⟨5, 1, 0, 0, 2⟩)] ["c"] sampleEvents
      (by simp)
      (by
        intro e he
        simp only [sampleEvents, List.mem_cons, List.mem_singleton] at he
        rcases he with rfl | rfl | rfl | rfl | he
        · exact ⟨_, rfl⟩
        · exact ⟨_, rfl⟩
        · exact ⟨_, rfl⟩
        · exact ⟨_, rfl⟩
        · cases he)
      (by
        intro K2 hK2
        simp only [sampleEvents, List.mem_cons, List.mem_singleton] at hK2
        rcases hK2 with h | h | h | h | h
        · cases h
        · cases h
        · cases h
        · cases h
          decide
        · cases h)
      (by
        intro pe hpe hc
        have hplain : isPlainDirectPost sampleJson "u"
            ⟨"c", some plainPostText, some "D", none⟩ :=
          ⟨plainPostText, rfl, by decide, by decide, rfl, by
            rintro ⟨raw, h, _⟩
            cases h⟩
        simp only [sampleEvents, List.mem_cons, List.mem_singleton] at hpe
        rcases hpe with h | h | h | h | h
        · cases h
          exact hplain
        · cases h
          exact absurd hc (by decide)
        · cases h
          exact hplain
        · cases h
        · cases h)⟩

/-! ### C9: growth of the backoff duration -/

theorem sleepBackoff_snd (d jitter : Int) :
    (sleepBackoff d jitter).2 = if d < 30 * Second then wrapInt64 (d * 2) else d := rfl

theorem backoffAfter_eq (jitters : List Int) :
    backoffAfter jitters =
      (if jitters.length < 5 then 2 ^ jitters.length else 32) * Second := by
  induction jitters with
  | nil => simp [backoffAfter]
  | cons j rest ih =>
    rw [backoffAfter, sleepBackoff_snd, ih]
    have hlen : (j :: rest).length = rest.length + 1 := rfl
    rw [hlen]
    by_cases h5 : rest.length < 5
    · have hcases : rest.length = 0 ∨ rest.length = 1 ∨ rest.length = 2 ∨
          rest.length = 3 ∨ rest.length = 4 := by omega
      rcases hcases with h | h | h | h | h <;> rw [h] <;> decide
    · have h6 : ¬ rest.length + 1 < 5 := by omega
      rw [if_neg h5, if_neg h6]
      decide

/-- C9: the duration returned by `sleepBackoff` is `2*d` when `d < 30 s` and `d`
otherwise, whatever the jitter and the wait (the doubling is an `int64`
product, exact for every `d` from `-2^62` up, so for every non-negative
duration).  From the base of 1 s the duration after `k` consecutive failures is
`2^k` s for `k < 5` and 32 s from then on: 2 s after the first failure,
non-decreasing, and never above 60 s. -/
theorem sleepBackoff_next_spec :
    (∀ d jitter : Int, (sleepBackoff d jitter).2 =
      if d < 30 * Second then wrapInt64 (d * 2) else d) ∧
    (∀ d : Int, -4611686018427387904 ≤ d → d < 30 * Second → wrapInt64 (d * 2) = 2 * d) ∧
    (∀ d j1 j2 : Int, (sleepBackoff d j1).2 = (sleepBackoff d j2).2) ∧
    (∀ jitters : List Int, backoffAfter jitters =
      (if jitters.length < 5 then 2 ^ jitters.length else 32) * Second) ∧
    (∀ j : Int, backoffAfter [j] = 2 * Second) ∧
    (∀ (jitters : List Int) (j : Int), backoffAfter jitters ≤ backoffAfter (j :: jitters)) ∧
    (∀ jitters : List Int, backoffAfter jitters ≤ 60 * Second) := by
  refine ⟨fun d j => rfl, ?_, fun d j1 j2 => rfl, backoffAfter_eq,
    fun j => by rw [backoffAfter_eq]; simp, ?_, ?_⟩
  · intro d h1 h2
    unfold Second at h2
    unfold wrapInt64
    omega
  · intro jitters j
    rw [backoffAfter_eq, backoffAfter_eq]
    have hlen : (j :: jitters).length = jitters.length + 1 := rfl
    rw [hlen]
    by_cases h5 : jitters.length < 5
    · have hcases : jitters.length = 0 ∨ jitters.length = 1 ∨ jitters.length = 2 ∨
          jitters.length = 3 ∨ jitters.length = 4 := by omega
      rcases hcases with h | h | h | h | h <;> rw [h] <;> decide
    · have h6 : ¬ jitters.length + 1 < 5 := by omega
      rw [if_neg h5, if_neg h6]
  · intro jitters
    rw [backoffAfter_eq]
    by_cases h5 : jitters.length < 5
    · have hcases : jitters.length = 0 ∨ jitters.length = 1 ∨ jitters.length = 2 ∨
          jitters.length = 3 ∨ jitters.length = 4 := by omega
      rcases hcases with h | h | h | h | h <;> rw [h] <;> decide
    · rw [if_neg h5]
      decide

/-! ### C8: the wait of `sleepBackoff` -/

theorem sleepBackoff_wait_le (d jitter : Int) : (sleepBackoff d jitter).1 ≤ 60 * Second := by
  show (if wrapInt64 (d + jitter) > 60 * Second then 60 * Second
    else wrapInt64 (d + jitter)) ≤ 60 * Second
  split <;> omega

theorem sleepBackoff_wait_eq (d jitter : Int) (h1 : -9223372036854775808 ≤ d + jitter)
    (h2 : d + jitter < 9223372036854775808) :
    (sleepBackoff d jitter).1 = min (60 * Second) (d + jitter) := by
  show (if wrapInt64 (d + jitter) > 60 * Second then 60 * Second
    else wrapInt64 (d + jitter)) = _
  rw [wrapInt64_of_inRange _ h1 h2]
  split <;> omega

/-! ### Every map of the model holds one entry per key -/

theorem mem_of_mapGet {α : Type} (m : GoMap α) (k : String) (v : α)
    (h : mapGet m k = some v) : (k, v) ∈ m := by
  induction m with
  | nil => simp [mapGet] at h
  | cons e rest ih =>
    obtain ⟨k0, v0⟩ := e
    by_cases h0 : k0 = k
    · subst h0
      simp [mapGet] at h
      simp [h]
    · simp [mapGet, h0] at h
      exact List.mem_cons_of_mem _ (ih h)

theorem mapGet_of_mem {α : Type} (m : GoMap α) (k : String) (v : α)
    (hm : NodupKeys m) (h : (k, v) ∈ m) : mapGet m k = some v := by
  induction m with
  | nil => cases h
  | cons e rest ih =>
    obtain ⟨k0, v0⟩ := e
    have hm2 : k0 ∉ rest.map Prod.fst ∧ NodupKeys rest := by
      simpa [NodupKeys] using hm
    rcases List.mem_cons.1 h with heq | hrest
    · cases heq
      simp [mapGet]
    · have hne : k0 ≠ k := by
        intro hk
        subst hk
        exact hm2.1 (List.mem_map.2 ⟨(k0, v), hrest, rfl⟩)
      simp [mapGet, hne, ih hm2.2 hrest]

theorem keys_mapSet {α : Type} (m : GoMap α) (k : String) (v : α) :
    (mapSet m k v).map Prod.fst =
      if k ∈ m.map Prod.fst then m.map Prod.fst else m.map Prod.fst ++ [k] := by
  induction m with
  | nil => simp [mapSet]
  | cons e rest ih =>
    obtain ⟨k0, v0⟩ := e
    by_cases h0 : k0 = k
    · subst h0
      simp [mapSet]
    · have h1 : ¬ k = k0 := fun h => h0 h.symm
      by_cases hk : k ∈ rest.map Prod.fst
      · simp only [mapSet, h0, if_false, List.map_cons, ih, if_pos hk, List.mem_cons, hk,
          or_true, if_true]
      · simp only [mapSet, h0, if_false, List.map_cons, ih, if_neg hk, List.mem_cons, hk,
          h1, or_self, List.cons_append]

theorem NodupKeys_mapSet {α : Type} (m : GoMap α) (k : String) (v : α)
    (h : NodupKeys m) : NodupKeys (mapSet m k v) := by
  unfold NodupKeys at *
  rw [keys_mapSet]
  by_cases hk : k ∈ m.map Prod.fst
  · rw [if_pos hk]
    exact h
  · rw [if_neg hk]
    exact List.Nodup.append h (List.nodup_singleton k) (by simpa using hk)

theorem NodupKeys_viewedLoop (K : List String) (s : Aggregate) (h : NodupKeys s) :
    NodupKeys (viewedLoop K s) := by
  induction K generalizing s with
  | nil => exact h
  | cons k rest ih => exact ih _ (NodupKeys_mapSet s k _ h)

theorem NodupKeys_ProcessPost (json : Json) (s after : Aggregate) (e : PostedEvent)
    (u : String) (h : NodupKeys s) (hrun : ProcessPost json s e u = some after) :
    NodupKeys after := by
  obtain ⟨s1, hinit, _, _, _⟩ := ProcessPost_init s e.ChannelId
  have h1 : NodupKeys s1 := by
    cases hg : mapGet s e.ChannelId with
    | some v =>
      rw [hg] at hinit
      simp only [Prod.mk.injEq] at hinit
      rw [← hinit.1]
      exact h
    | none =>
      rw [hg] at hinit
      simp only [Prod.mk.injEq] at hinit
      rw [← hinit.1]
      exact NodupKeys_mapSet s _ _ h
  simp only [ProcessPost, hinit] at hrun
  cases hp : e.post with
  | none =>
    rw [hp] at hrun
    cases hrun
    exact h1
  | some p =>
    rw [hp] at hrun
    by_cases hsys : HasPrefix (json.unmarshalPost p).value.Type_ PostSystemMessagePrefix = true
    · simp only [hsys, if_true] at hrun
      cases hrun
      exact h1
    · simp only [hsys] at hrun
      cases hct : e.channel_type with
      | none =>
        rw [hct] at hrun
        cases hrun
      | some kind =>
        rw [hct] at hrun
        cases hrun
        exact NodupKeys_mapSet s1 _ _ h1

theorem NodupKeys_membersLoop (chansById : GoMap Channel) (members : List ChannelMember)
    (fresh : Aggregate) (h : NodupKeys fresh) :
    NodupKeys (membersLoop chansById members fresh) := by
  induction members generalizing fresh with
  | nil => exact h
  | cons mem rest ih =>
    cases hch : mapGet chansById mem.ChannelId with
    | none =>
      simp only [membersLoop, hch]
      exact ih fresh h
    | some channel =>
      simp only [membersLoop, hch]
      exact ih _ (NodupKeys_mapSet fresh _ _ h)

theorem NodupKeys_teamsLoop (teams : List TeamPull) :
    ∀ fresh result : Aggregate, NodupKeys fresh →
      teamsLoop teams fresh = Except.ok result → NodupKeys result := by
  induction teams with
  | nil =>
    intro fresh result h hrun
    cases hrun
    exact h
  | cons t rest ih =>
    intro fresh result h hrun
    cases hc : t.chans with
    | error err =>
      simp only [teamsLoop, hc] at hrun
      cases hrun
    | ok chans =>
      cases hm : t.members with
      | error err =>
        simp only [teamsLoop, hc, hm] at hrun
        cases hrun
      | ok members =>
        simp only [teamsLoop, hc, hm] at hrun
        exact ih _ result (NodupKeys_membersLoop _ members fresh h) hrun

/-- Whatever `syncCounts` leaves in the `Counter` holds one entry per key when
the aggregate before the call did. -/
theorem NodupKeys_syncCounts (teams : List TeamPull) (counter : Aggregate)
    (h : NodupKeys counter) : NodupKeys (syncCounts teams counter).2 := by
  cases hrun : teamsLoop teams [] with
  | error err =>
    simp only [syncCounts, hrun]
    exact h
  | ok fresh =>
    simp only [syncCounts, hrun, SetCounts]
    exact NodupKeys_teamsLoop teams [] fresh (by simp [NodupKeys]) hrun

/-! ### Rounding to binary64 -/

theorem roundHalfEven_le (t : ℚ) (n : ℤ) (h : t ≤ n) : roundHalfEven t ≤ n := by
  have hfl : ⌊t⌋ ≤ n := by
    have h0 : ((⌊t⌋ : ℤ) : ℚ) ≤ n := le_trans (Int.floor_le t) h
    exact_mod_cast h0
  unfold roundHalfEven
  have hcase : t - ⌊t⌋ < 1 / 2 ∨ ⌊t⌋ + 1 ≤ n := by
    by_cases hlt : t - ⌊t⌋ < 1 / 2
    · exact Or.inl hlt
    · right
      have h1 : (⌊t⌋ : ℚ) < t := by linarith
      have h2 : (⌊t⌋ : ℚ) < n := lt_of_lt_of_le h1 h
      have h3 : ⌊t⌋ < n := by exact_mod_cast h2
      omega
  rcases hcase with h1 | h1
  · rw [if_pos h1]; exact hfl
  · split_ifs <;> omega

theorem le_roundHalfEven (t : ℚ) (n : ℤ) (h : (n : ℚ) ≤ t) : n ≤ roundHalfEven t := by
  have hfl : n ≤ ⌊t⌋ := Int.le_floor.2 h
  unfold roundHalfEven
  split_ifs <;> omega

theorem roundHalfEven_eq (t : ℚ) (n : ℤ) (h1 : (n : ℚ) - 1 / 2 < t) (h2 : t < n + 1 / 2) :
    roundHalfEven t = n := by
  unfold roundHalfEven
  by_cases hn : (n : ℚ) ≤ t
  · have hfl : ⌊t⌋ = n := by
      rw [Int.floor_eq_iff]
      constructor
      · exact hn
      · linarith
    rw [hfl, if_pos (by linarith)]
  · have hfl : ⌊t⌋ = n - 1 := by
      rw [Int.floor_eq_iff]
      push_cast
      constructor
      · linarith
      · push_neg at hn; linarith
    rw [hfl]
    push_cast
    rw [if_neg (by linarith), if_pos (by linarith)]
    ring

theorem log_two_eq (x : ℚ) (e : ℤ) (h1 : (2 : ℚ) ^ e ≤ x) (h2 : x < 2 ^ (e + 1)) :
    Int.log 2 |x| = e := by
  have hpos : 0 < x := lt_of_lt_of_le (by positivity) h1
  rw [abs_of_pos hpos]
  have a : e ≤ Int.log 2 x := (Int.zpow_le_iff_le_log (by norm_num) hpos).1 (by exact_mod_cast h1)
  have b : Int.log 2 x < e + 1 := (Int.lt_zpow_iff_log_lt (by norm_num) hpos).1 (by exact_mod_cast h2)
  omega

theorem roundF64_of_pos (x : ℚ) (hx : 0 < x) :
    ∃ e : ℤ, (2 : ℚ) ^ e ≤ x ∧ x < 2 ^ (e + 1) ∧
      roundF64 x = (roundHalfEven (x / 2 ^ (e - 52)) : ℚ) * 2 ^ (e - 52) := by
  refine ⟨Int.log 2 |x|, ?_, ?_, ?_⟩
  · rw [abs_of_pos hx]
    exact_mod_cast @Int.zpow_log_le_self ℚ _ _ 2 x (by norm_num) hx
  · rw [abs_of_pos hx]
    exact_mod_cast @Int.lt_zpow_succ_log_self ℚ _ _ 2 (by norm_num) x
  · unfold roundF64
    rw [if_neg (ne_of_gt hx)]

theorem mantissa_small (M : ℕ) (t e : ℤ) (hM : M < 2 ^ 53) (ht : t < e - 52) :
    (M : ℚ) * 2 ^ t < 2 ^ e := by
  have h1 : (M : ℚ) < 2 ^ 53 := by exact_mod_cast hM
  have h2 : (2 : ℚ) ^ t ≤ 2 ^ (e - 53) := zpow_le_zpow_right₀ (by norm_num) (by omega)
  have h3 : (0 : ℚ) < 2 ^ (e - 53) := by positivity
  have h4 : (2 : ℚ) ^ e = 2 ^ 53 * 2 ^ (e - 53) := by
    rw [show e = 53 + (e - 53) by ring, zpow_add₀ (by norm_num)]
    norm_num
  rw [h4]
  calc (M : ℚ) * 2 ^ t ≤ M * 2 ^ (e - 53) := by
        apply mul_le_mul_of_nonneg_left h2
        positivity
    _ < 2 ^ 53 * 2 ^ (e - 53) := by
        apply mul_lt_mul_of_pos_right h1 h3

theorem mantissa_scaled (M : ℕ) (t e : ℤ) (ht : e - 52 ≤ t) :
    ∃ N : ℤ, (M : ℚ) * 2 ^ t = N * 2 ^ (e - 52) := by
  obtain ⟨k, hk⟩ : ∃ k : ℕ, t = (e - 52) + k := ⟨(t - (e - 52)).toNat, by omega⟩
  refine ⟨M * 2 ^ k, ?_⟩
  rw [hk, zpow_add₀ (by norm_num)]
  push_cast
  rw [zpow_natCast]
  ring

theorem roundF64_le (x : ℚ) (M : ℕ) (t : ℤ) (hx : 0 ≤ x) (hM : M < 2 ^ 53)
    (h : x ≤ M * 2 ^ t) : roundF64 x ≤ M * 2 ^ t := by
  rcases eq_or_lt_of_le hx with h0 | hpos
  · rw [← h0]
    simp only [roundF64, if_true]
    positivity
  · obtain ⟨e, h1, _, hr⟩ := roundF64_of_pos x hpos
    have hu : (0 : ℚ) < 2 ^ (e - 52) := by positivity
    by_cases hk : e - 52 ≤ t
    · obtain ⟨N, hN⟩ := mantissa_scaled M t e hk
      rw [hr, hN]
      have hle : x / 2 ^ (e - 52) ≤ N := by
        rw [div_le_iff₀ hu, ← hN]
        exact h
      have := roundHalfEven_le _ N hle
      have hc : ((roundHalfEven (x / 2 ^ (e - 52)) : ℤ) : ℚ) ≤ N := by exact_mod_cast this
      exact mul_le_mul_of_nonneg_right hc hu.le
    · have := mantissa_small M t e hM (by omega)
      linarith

theorem le_roundF64 (x : ℚ) (M : ℕ) (t : ℤ) (hx : 0 ≤ x) (hM : M < 2 ^ 53)
    (h : (M : ℚ) * 2 ^ t ≤ x) : (M : ℚ) * 2 ^ t ≤ roundF64 x := by
  rcases eq_or_lt_of_le hx with h0 | hpos
  · rw [← h0] at h ⊢
    simp only [roundF64, if_true]
    exact h
  · obtain ⟨e, h1, _, hr⟩ := roundF64_of_pos x hpos
    have hu : (0 : ℚ) < 2 ^ (e - 52) := by positivity
    by_cases hk : e - 52 ≤ t
    · obtain ⟨N, hN⟩ := mantissa_scaled M t e hk
      rw [hr, hN]
      have hle : (N : ℚ) ≤ x / 2 ^ (e - 52) := by
        rw [le_div_iff₀ hu, ← hN]
        exact h
      have := le_roundHalfEven _ N hle
      have hc : (N : ℚ) ≤ ((roundHalfEven (x / 2 ^ (e - 52)) : ℤ) : ℚ) := by exact_mod_cast this
      exact mul_le_mul_of_nonneg_right hc hu.le
    · have hsmall := mantissa_small M t e hM (by omega)
      have h3 : (2 : ℚ) ^ e = ((4503599627370496 : ℤ) : ℚ) * 2 ^ (e - 52) := by
        rw [show e = 52 + (e - 52) by ring, zpow_add₀ (by norm_num)]
        norm_num
      have h52 : ((4503599627370496 : ℤ) : ℚ) ≤ x / 2 ^ (e - 52) := by
        rw [le_div_iff₀ hu, ← h3]
        exact h1
      have := le_roundHalfEven _ _ h52
      have hc : ((4503599627370496 : ℤ) : ℚ) ≤
          ((roundHalfEven (x / 2 ^ (e - 52)) : ℤ) : ℚ) := by
        exact_mod_cast this
      rw [hr]
      calc (M : ℚ) * 2 ^ t ≤ 2 ^ e := hsmall.le
        _ = ((4503599627370496 : ℤ) : ℚ) * 2 ^ (e - 52) := h3
        _ ≤ _ := mul_le_mul_of_nonneg_right hc hu.le

theorem roundF64_float (M : ℕ) (t : ℤ) (hM : M < 2 ^ 53) :
    roundF64 ((M : ℚ) * 2 ^ t) = M * 2 ^ t :=
  le_antisymm (roundF64_le _ M t (by positivity) hM le_rfl)
    (le_roundF64 _ M t (by positivity) hM le_rfl)

theorem roundF64_eval (x : ℚ) (e n : ℤ) (h1 : (2 : ℚ) ^ e ≤ x) (h2 : x < 2 ^ (e + 1))
    (h3 : ((n : ℚ) - 1 / 2) * 2 ^ (e - 52) < x) (h4 : x < (n + 1 / 2) * 2 ^ (e - 52)) :
    roundF64 x = n * 2 ^ (e - 52) := by
  have hpos : 0 < x := lt_of_lt_of_le (by positivity) h1
  have hu : (0 : ℚ) < 2 ^ (e - 52) := by positivity
  unfold roundF64
  rw [if_neg (ne_of_gt hpos), log_two_eq x e h1 h2, roundHalfEven_eq _ n]
  · rw [lt_div_iff₀ hu]; exact h3
  · rw [div_lt_iff₀ hu]; exact h4

/-- The `float64` constant `0.2`. -/
theorem roundF64_fifth : roundF64 (1 / 5) = 3602879701896397 / 18014398509481984 := by
  rw [roundF64_eval (1 / 5) (-3) 7205759403792794] <;> norm_num

theorem roundF64_nonneg (x : ℚ) (hx : 0 ≤ x) : 0 ≤ roundF64 x := by
  have h := le_roundF64 x 0 0 hx (by norm_num) (by simpa using hx)
  simpa using h

theorem roundF64_one : roundF64 1 = 1 := by
  have h := roundF64_float 1 0 (by norm_num)
  simpa using h

/-- An integer below `2 ^ 53` is a binary64 value. -/
theorem roundF64_int (d : Int) (h0 : 0 ≤ d) (h1 : d < 9007199254740992) :
    roundF64 (d : ℚ) = d := by
  obtain ⟨n, rfl⟩ := Int.eq_ofNat_of_zero_le h0
  have h := roundF64_float n 0 (by exact_mod_cast h1)
  simpa using h

/-- The factor lies between 1 and the `float64` next above 1.2. -/
theorem jitterFactor_bounds (fused : Bool) (r : ℚ) (hr0 : 0 ≤ r) (hr1 : r < 1) :
    1 ≤ jitterFactor fused r ∧
    jitterFactor fused r ≤ 5404319552844596 / 4503599627370496 := by
  have hc : roundF64 (1 / 5) = 3602879701896397 / 18014398509481984 := roundF64_fifth
  have hcr0 : 0 ≤ roundF64 (1 / 5) * r := by rw [hc]; positivity
  have hcr1 : roundF64 (1 / 5) * r ≤ 3602879701896397 / 18014398509481984 := by
    rw [hc]
    nlinarith
  have key : ∀ y : ℚ, 0 ≤ y → y ≤ 3602879701896397 / 18014398509481984 →
      1 ≤ roundF64 (1 + y) ∧ roundF64 (1 + y) ≤ 5404319552844596 / 4503599627370496 := by
    intro y hy0 hy1
    constructor
    · have h := le_roundF64 (1 + y) 1 0 (by linarith) (by norm_num) (by norm_num; linarith)
      simpa using h
    · have h := roundF64_le (1 + y) 5404319552844596 (-52) (by linarith) (by norm_num)
        (by norm_num; linarith)
      norm_num at h
      linarith
  cases fused with
  | true =>
    simp only [jitterFactor, if_true]
    exact key _ hcr0 hcr1
  | false =>
    simp only [jitterFactor, Bool.false_eq_true, if_false]
    apply key
    · exact roundF64_nonneg _ hcr0
    · have h := roundF64_le (roundF64 (1 / 5) * r) 3602879701896397 (-54) hcr0 (by norm_num)
        (by norm_num; linarith)
      norm_num at h
      linarith

theorem toInt64_of_nonneg (x : ℚ) (h0 : 0 ≤ x) (h1 : x ≤ 4611686018427387904) :
    toInt64 x = some ⌊x⌋ ∧ 0 ≤ ⌊x⌋ ∧ ⌊x⌋ ≤ 4611686018427387904 := by
  have hf0 : 0 ≤ ⌊x⌋ := Int.floor_nonneg.2 h0
  have hf1 : ⌊x⌋ ≤ 4611686018427387904 := by
    have h2 : ((⌊x⌋ : ℤ) : ℚ) ≤ ((4611686018427387904 : ℤ) : ℚ) := by
      push_cast
      exact le_trans (Int.floor_le x) h1
    exact_mod_cast h2
  refine ⟨?_, hf0, hf1⟩
  simp only [toInt64, h0, if_true]
  rw [if_pos]
  constructor <;> omega

/-- The product `float64(current) * factor`, rounded, for a duration up to
`2 ^ 61` ns: it is non-negative and at most `2 ^ 62`. -/
theorem product_range (d : Int) (f : ℚ) (hd : 0 < d) (hd2 : d ≤ 2305843009213693952)
    (hf1 : 1 ≤ f) (hf2 : f ≤ 5404319552844596 / 4503599627370496) :
    0 ≤ roundF64 (roundF64 (d : ℚ) * f) ∧
    roundF64 (roundF64 (d : ℚ) * f) ≤ 4611686018427387904 := by
  have hdq : (0 : ℚ) ≤ d := by exact_mod_cast hd.le
  have hdq2 : (d : ℚ) ≤ 2305843009213693952 := by exact_mod_cast hd2
  have hD0 : 0 ≤ roundF64 (d : ℚ) := roundF64_nonneg _ hdq
  have hD1 : roundF64 (d : ℚ) ≤ 2305843009213693952 := by
    have h := roundF64_le (d : ℚ) 1 61 hdq (by norm_num) (by norm_num; linarith)
    norm_num at h
    linarith
  have hp0 : 0 ≤ roundF64 (d : ℚ) * f := mul_nonneg hD0 (by linarith)
  have hp1 : roundF64 (d : ℚ) * f ≤ 4611686018427387904 := by
    calc roundF64 (d : ℚ) * f
        ≤ 2305843009213693952 * (5404319552844596 / 4503599627370496) :=
          mul_le_mul hD1 hf2 (by linarith) (by norm_num)
      _ ≤ 4611686018427387904 := by norm_num
  refine ⟨roundF64_nonneg _ hp0, ?_⟩
  have h := roundF64_le (roundF64 (d : ℚ) * f) 1 62 hp0 (by norm_num) (by norm_num; linarith)
  norm_num at h
  linarith

/-- The truncated product for a duration up to `2 ^ 48` ns lies between the
duration and six fifths of it. -/
theorem product_bounds (d : Int) (f : ℚ) (hd : 0 < d) (hd2 : d ≤ 281474976710656)
    (hf1 : 1 ≤ f) (hf2 : f ≤ 5404319552844596 / 4503599627370496) :
    d ≤ ⌊roundF64 (roundF64 (d : ℚ) * f)⌋ ∧
    5 * ⌊roundF64 (roundF64 (d : ℚ) * f)⌋ ≤ 6 * d := by
  have hdq : (0 : ℚ) < d := by exact_mod_cast hd
  have hdq2 : (d : ℚ) ≤ 281474976710656 := by exact_mod_cast hd2
  rw [roundF64_int d hd.le (by omega)]
  obtain ⟨n, hn⟩ := Int.eq_ofNat_of_zero_le hd.le
  have hx0 : 0 ≤ (d : ℚ) * f := by positivity
  constructor
  · apply Int.le_floor.2
    have hnq : (d : ℚ) = (n : ℚ) * 2 ^ (0 : ℤ) := by
      rw [hn]
      simp
    have h := le_roundF64 ((d : ℚ) * f) n 0 hx0 (by omega) (by
      rw [← hnq]
      nlinarith)
    rw [← hnq] at h
    exact_mod_cast h
  · -- `m` is the whole part of six fifths of `d`
    obtain ⟨m, hm⟩ : ∃ m : ℕ, (6 * d) / 5 = (m : Int) :=
      Int.eq_ofNat_of_zero_le (by omega)
    have hm1 : 5 * (m : Int) ≤ 6 * d := by omega
    have hm2 : 6 * d ≤ 5 * (m : Int) + 4 := by omega
    have hm2q : 6 * (d : ℚ) ≤ 5 * (m : ℚ) + 4 := by exact_mod_cast hm2
    have hup : (d : ℚ) * f ≤ ((8 * m + 7 : ℕ) : ℚ) * 2 ^ (-3 : ℤ) := by
      have h1 : (d : ℚ) * f ≤ d * (5404319552844596 / 4503599627370496) :=
        mul_le_mul_of_nonneg_left hf2 hdq.le
      push_cast
      norm_num
      linarith
    have h := roundF64_le ((d : ℚ) * f) (8 * m + 7) (-3) hx0 (by omega) hup
    have hlt : roundF64 ((d : ℚ) * f) < ((m + 1 : Int) : ℚ) := by
      push_cast at h ⊢
      norm_num at h
      linarith
    have hfl : ⌊roundF64 ((d : ℚ) * f)⌋ < (m : Int) + 1 := Int.floor_lt.2 hlt
    omega

theorem sleepBackoffDraw_of_jitter (fused : Bool) (d : Int) (r : ℚ) (j : Int)
    (hj : jitter fused d r = some j) :
    sleepBackoffDraw fused d r = some (sleepBackoff d j) := by
  unfold sleepBackoffDraw
  rw [hj]

/-- The jitter and the wait of one round for a duration up to `2 ^ 61` ns. -/
theorem sleepBackoffDraw_run (fused : Bool) (d : Int) (r : ℚ)
    (hd : 0 < d) (hd2 : d ≤ 2305843009213693952) (hr0 : 0 ≤ r) (hr1 : r < 1) :
    ∃ j, jitter fused d r = some j ∧
      sleepBackoffDraw fused d r = some (sleepBackoff d j) ∧
      (sleepBackoff d j).1 = min (60 * Second) (d + j) ∧
      (d ≤ 281474976710656 → d ≤ j ∧ 5 * j ≤ 6 * d) := by
  obtain ⟨hf1, hf2⟩ := jitterFactor_bounds fused r hr0 hr1
  obtain ⟨hp0, hp1⟩ := product_range d (jitterFactor fused r) hd hd2 hf1 hf2
  obtain ⟨hj, hj0, hj1⟩ := toInt64_of_nonneg _ hp0 hp1
  have hB : d ≤ 281474976710656 →
      d ≤ ⌊roundF64 (roundF64 (d : ℚ) * jitterFactor fused r)⌋ ∧
      5 * ⌊roundF64 (roundF64 (d : ℚ) * jitterFactor fused r)⌋ ≤ 6 * d :=
    fun hsmall => product_bounds d (jitterFactor fused r) hd hsmall hf1 hf2
  have hjit : jitter fused d r
      = some ⌊roundF64 (roundF64 (d : ℚ) * jitterFactor fused r)⌋ := by
    unfold jitter
    exact hj
  generalize ⌊roundF64 (roundF64 (d : ℚ) * jitterFactor fused r)⌋ = j at hjit hj0 hj1 hB
  clear hj hp0 hp1 hf1 hf2
  refine ⟨j, hjit, ?_, ?_, hB⟩
  · exact sleepBackoffDraw_of_jitter fused d r j hjit
  · have h1 : -9223372036854775808 ≤ d + j := by omega
    have h2 : d + j < 9223372036854775808 := by omega
    exact sleepBackoff_wait_eq d j h1 h2

/-- The factor for the largest draw, `1 - 2 ^ (-53)`, is the `float64` nearest to
1.2, with or without fusing. -/
theorem jitterFactor_top (fused : Bool) :
    jitterFactor fused (9007199254740991 / 9007199254740992)
      = 5404319552844595 / 4503599627370496 := by
  cases fused with
  | true =>
    simp only [jitterFactor, if_true, roundF64_fifth]
    rw [roundF64_eval _ 0 5404319552844595] <;> norm_num
  | false =>
    simp only [jitterFactor, Bool.false_eq_true, if_false, roundF64_fifth]
    have hy : roundF64 (3602879701896397 / 18014398509481984
        * (9007199254740991 / 9007199254740992))
        = 7205759403792793 / 36028797018963968 := by
      rw [roundF64_eval _ (-3) 7205759403792793] <;> norm_num
    rw [hy]
    rw [roundF64_eval _ 0 5404319552844595] <;> norm_num

/-- At 1 s and the largest draw the jitter is 1.2 s to the nanosecond. -/
theorem jitter_top (fused : Bool) :
    jitter fused Second (9007199254740991 / 9007199254740992) = some 1200000000 := by
  have hd : roundF64 ((Second : Int) : ℚ) = 1000000000 := by
    have h := roundF64_int 1000000000 (by norm_num) (by norm_num)
    simpa [Second] using h
  have hp : roundF64 ((1000000000 : ℚ) * (5404319552844595 / 4503599627370496))
      = ((1200000000 : ℤ) : ℚ) := by
    rw [roundF64_eval _ 30 5033164800000000] <;> norm_num
  unfold jitter
  rw [jitterFactor_top, hd, hp]
  have h := (toInt64_of_nonneg (((1200000000 : ℤ) : ℚ)) (by norm_num) (by norm_num)).1
  rw [h, Int.floor_intCast]

/-- At `2 ^ 62` ns and the draw 0 every operation is exact: the jitter is
`2 ^ 62` ns. -/
theorem jitter_huge :
    jitter false 4611686018427387904 0 = some 4611686018427387904 := by
  have hf : jitterFactor false 0 = 1 := by
    simp only [jitterFactor, Bool.false_eq_true, if_false, mul_zero]
    have h0 : roundF64 0 = 0 := by simp [roundF64]
    rw [h0, add_zero, roundF64_one]
  have hd : roundF64 (((4611686018427387904 : Int)) : ℚ) = ((4611686018427387904 : ℤ) : ℚ) := by
    have h := roundF64_float 1 62 (by norm_num)
    norm_num at h ⊢
    exact h
  unfold jitter
  rw [hf, mul_one, hd, hd]
  have h := (toInt64_of_nonneg (((4611686018427387904 : ℤ) : ℚ)) (by norm_num)
    (by norm_num)).1
  rw [h, Int.floor_intCast]

theorem sleepBackoff_top : sleepBackoff Second 1200000000 = (2200000000, 2000000000) := by
  decide

theorem sleepBackoff_huge :
    sleepBackoff 4611686018427387904 4611686018427387904
      = (-9223372036854775808, 4611686018427387904) := by
  decide

theorem sleepBackoffDraw_top (fused : Bool) :
    sleepBackoffDraw fused Second (9007199254740991 / 9007199254740992)
      = some (2200000000, 2000000000) :=
  (sleepBackoffDraw_of_jitter fused Second _ _ (jitter_top fused)).trans
    (congrArg some sleepBackoff_top)

theorem sleepBackoffDraw_huge :
    sleepBackoffDraw false 4611686018427387904 0
      = some (-9223372036854775808, 4611686018427387904) :=
  (sleepBackoffDraw_of_jitter false 4611686018427387904 _ _ jitter_huge).trans
    (congrArg some sleepBackoff_huge)

/-- The jitter of the claimed formula, in exact arithmetic, at 1 s and the
largest draw. -/
theorem exact_jitter_top :
    ⌊(Second : ℚ) * (1 + 2 / 10 * (9007199254740991 / 9007199254740992))⌋
      = 1199999999 := by
  rw [Int.floor_eq_iff]
  norm_num [Second]

theorem exact_jitter_huge :
    ⌊((4611686018427387904 : Int) : ℚ) * (1 + 2 / 10 * 0)⌋ = 4611686018427387904 := by
  rw [Int.floor_eq_iff]
  norm_num

/-- C8, as stated, fails.  At `d` = 1 s and the draw `1 - 2 ^ (-53)` the binary64
product rounds up to 1.2 s, with or without fusing, so the wait is 2.2 s and
not below it, one nanosecond more than the claimed `min` formula gives in exact
arithmetic.  At `d = 2 ^ 62` ns and the draw 0 the sum `current + jitter`
overflows `int64`, and the wait is negative where the formula gives 60 s. -/
theorem sleepBackoff_wait_counterexample :
    sleepBackoffDraw false Second (9007199254740991 / 9007199254740992)
      = some (2200000000, 2000000000) ∧
    sleepBackoffDraw true Second (9007199254740991 / 9007199254740992)
      = some (2200000000, 2000000000) ∧
    ¬ (((2200000000 : Int) : ℚ) < 22 / 10 * (Second : ℚ)) ∧
    min (60 * Second)
      (Second + ⌊(Second : ℚ) * (1 + 2 / 10 * (9007199254740991 / 9007199254740992))⌋)
      = 2199999999 ∧
    sleepBackoffDraw false 4611686018427387904 0
      = some (-9223372036854775808, 4611686018427387904) ∧
    min (60 * Second)
      (4611686018427387904 + ⌊((4611686018427387904 : Int) : ℚ) * (1 + 2 / 10 * 0)⌋)
      = 60 * Second := by
  refine ⟨sleepBackoffDraw_top false, sleepBackoffDraw_top true, ?_, ?_,
    sleepBackoffDraw_huge, ?_⟩
  · norm_num [Second]
  · rw [exact_jitter_top]
    decide
  · rw [exact_jitter_huge]
    decide

/-- C8, amended: for every duration `d` with `0 < d ≤ 2 ^ 61` ns and every draw
`r = k / 2 ^ 53` in `[0, 1)`, with or without fusing, the conversion to a
duration succeeds with a jitter `j`, and the wait is `min (60 s, d + j)`, never
above 60 s.  For `d ≤ 2 ^ 48` ns the jitter satisfies `d ≤ j ≤ 1.2 * d`, so the
wait is at least `2 * d` and at most `2.2 * d` whenever `d + j` is at most
60 s.  From the base `d` = 1 s the first wait lies in `[2.0 s, 2.2 s]`. -/
theorem sleepBackoffDraw_wait_spec (fused : Bool) (d : Int) (k : ℕ)
    (hd : 0 < d) (hd2 : d ≤ 2305843009213693952) (hk : k < 9007199254740992) :
    ∃ j wait next,
      jitter fused d ((k : ℚ) / 9007199254740992) = some j ∧
      sleepBackoffDraw fused d ((k : ℚ) / 9007199254740992) = some (wait, next) ∧
      wait = min (60 * Second) (d + j) ∧
      wait ≤ 60 * Second ∧
      (d ≤ 281474976710656 → d ≤ j ∧ 5 * j ≤ 6 * d) ∧
      (d ≤ 281474976710656 → d + j ≤ 60 * Second →
        2 * d ≤ wait ∧ 5 * wait ≤ 11 * d) ∧
      (d = Second → 2 * Second ≤ wait ∧ 5 * wait ≤ 11 * Second) := by
  have hr0 : (0 : ℚ) ≤ (k : ℚ) / 9007199254740992 := by positivity
  have hr1 : (k : ℚ) / 9007199254740992 < 1 := by
    rw [div_lt_one (by norm_num)]
    exact_mod_cast hk
  obtain ⟨j, hjit, hrun, hwait, hB⟩ := sleepBackoffDraw_run fused d _ hd hd2 hr0 hr1
  refine ⟨j, (sleepBackoff d j).1, (sleepBackoff d j).2, hjit, hrun, hwait,
    sleepBackoff_wait_le d j, hB, ?_, ?_⟩
  · intro hsmall hcap
    obtain ⟨h1, h2⟩ := hB hsmall
    rw [hwait, min_eq_right hcap]
    constructor <;> omega
  · intro hsec
    have hs : Second = 1000000000 := rfl
    obtain ⟨h1, h2⟩ := hB (by omega)
    have hcap : d + j ≤ 60 * Second := by omega
    rw [hwait, min_eq_right hcap]
    constructor <;> omega

/-- Witness of `sleepBackoffDraw_wait_spec`: the base duration of 1 s with the
largest draw, where the wait is 2.2 s. -/
theorem sleepBackoffDraw_wait_spec_witness :
    sleepBackoffDraw false Second (((9007199254740991 : ℕ) : ℚ) / 9007199254740992)
      = some (2200000000, 2000000000) ∧
    ∃ j wait next,
      jitter false Second (((9007199254740991 : ℕ) : ℚ) / 9007199254740992) = some j ∧
      sleepBackoffDraw false Second (((9007199254740991 : ℕ) : ℚ) / 9007199254740992)
        = some (wait, next) ∧
      wait = min (60 * Second) (Second + j) ∧
      wait ≤ 60 * Second ∧
      (Second ≤ 281474976710656 → Second ≤ j ∧ 5 * j ≤ 6 * Second) ∧
      (Second ≤ 281474976710656 → Second + j ≤ 60 * Second →
        2 * Second ≤ wait ∧ 5 * wait ≤ 11 * Second) ∧
      (Second = Second → 2 * Second ≤ wait ∧ 5 * wait ≤ 11 * Second) := by
  have hcast : (((9007199254740991 : ℕ) : ℚ) / 9007199254740992)
      = 9007199254740991 / 9007199254740992 := by norm_num
  refine ⟨?_, sleepBackoffDraw_wait_spec false Second 9007199254740991 (by decide)
    (by decide) (by norm_num)⟩
  rw [hcast]
  exact sleepBackoffDraw_top false

end TrayWatch
